import Mathlib

/-!
# AGV-Planning-Tool: verification of the extraction/reconciliation core

A shallow embedding of the Python sources of the AGV planning tool
(`src/agv_agent/...`): the candidate data model (`schema/models.py`), the
normalizer (`schema/normalize.py`), the validator (`schema/validate.py`),
the confidence-weighted merge (`agent/merge.py`), the completeness scorer
(`agent/scoring.py`), the per-document orchestration loop
(`agent/orchestrator.py`) and the input iterator (`utils/io.py`).

Python dicts are modelled as association lists `List (String × α)` in
insertion order (Python 3 dicts iterate in insertion order); a dict built
by Python carries no duplicate keys, which theorems assume through
`nodupKeys` hypotheses where the result depends on it.  Python `None` is
`Option`; numeric values are `Rat`.
-/

namespace AGV

/-- A field value as it can sit in a candidate's `fields` dict: a number
(Python int/float), a string, or a raw key-value table (the `_kv` payload). -/
inductive Val where
  | num (q : Rat)
  | str (s : String)
  | kv (table : List (String × String))
deriving DecidableEq

/-- `Evidence` dataclass of `schema/models.py`. -/
structure Evidence where
  snippet : Option String
  source_tool : Option String
  source_id : Option String
deriving DecidableEq

/-- `AGVSpecCandidate` dataclass of `schema/models.py`.  A dict value of
`fields` is `Option Val` because the code stores `None` under a key
(e.g. a failed dimension parse writes `fields["length_mm"] = None`). -/
structure Candidate where
  source_id : String
  tool : String
  fields : List (String × Option Val)
  confidence : List (String × Rat)
  evidence : List (String × Evidence)
deriving DecidableEq

/-- Python `d.get(k)` / `d[k]` on an association list: first entry wins. -/
def lookupKey {α : Type} : List (String × α) → String → Option α
  | [], _ => none
  | (k', v) :: t, k => if k' = k then some v else lookupKey t k

/-- Python `d[k] = v`: replace the value in place if the key is present,
append otherwise (Python dicts keep the key's original position). -/
def setKey {α : Type} : List (String × α) → String → α → List (String × α)
  | [], k, v => [(k, v)]
  | (k', v') :: t, k, v => if k' = k then (k, v) :: t else (k', v') :: setKey t k v

def keysOf {α : Type} (l : List (String × α)) : List String := l.map Prod.fst

/-- The keys of a Python dict are pairwise distinct. -/
def nodupKeys {α : Type} (l : List (String × α)) : Prop := (keysOf l).Nodup

instance {α : Type} (l : List (String × α)) : Decidable (nodupKeys l) := by
  unfold nodupKeys; infer_instance

/-- The ten value-carrying canonical fields of `AGVSpec`. -/
inductive CanonField where
  | device_name | vendor
  | length_mm | width_mm | height_mm
  | payload_kg | speed_m_s | weight_kg
  | turning_radius_mm | lift_height_mm
deriving DecidableEq

def CanonField.name : CanonField → String
  | .device_name => "device_name"
  | .vendor => "vendor"
  | .length_mm => "length_mm"
  | .width_mm => "width_mm"
  | .height_mm => "height_mm"
  | .payload_kg => "payload_kg"
  | .speed_m_s => "speed_m_s"
  | .weight_kg => "weight_kg"
  | .turning_radius_mm => "turning_radius_mm"
  | .lift_height_mm => "lift_height_mm"

/-- `AGVSpec` dataclass of `schema/models.py`: the canonical record plus the
`_evidence` / `_confidence` side maps. -/
structure AGVSpec where
  source_id : Option String := none
  tool_trace : List String := []
  device_name : Option Val := none
  vendor : Option Val := none
  length_mm : Option Val := none
  width_mm : Option Val := none
  height_mm : Option Val := none
  payload_kg : Option Val := none
  speed_m_s : Option Val := none
  weight_kg : Option Val := none
  turning_radius_mm : Option Val := none
  lift_height_mm : Option Val := none
  evidenceMap : List (String × Evidence) := []
  confidenceMap : List (String × Rat) := []
deriving DecidableEq

/-- `getattr(spec, f)` for a canonical value field. -/
def AGVSpec.get (m : AGVSpec) : CanonField → Option Val
  | .device_name => m.device_name
  | .vendor => m.vendor
  | .length_mm => m.length_mm
  | .width_mm => m.width_mm
  | .height_mm => m.height_mm
  | .payload_kg => m.payload_kg
  | .speed_m_s => m.speed_m_s
  | .weight_kg => m.weight_kg
  | .turning_radius_mm => m.turning_radius_mm
  | .lift_height_mm => m.lift_height_mm

/-- `setattr(spec, f, v)` for a canonical value field. -/
def AGVSpec.setV (m : AGVSpec) : CanonField → Option Val → AGVSpec
  | .device_name, v => { m with device_name := v }
  | .vendor, v => { m with vendor := v }
  | .length_mm, v => { m with length_mm := v }
  | .width_mm, v => { m with width_mm := v }
  | .height_mm, v => { m with height_mm := v }
  | .payload_kg, v => { m with payload_kg := v }
  | .speed_m_s, v => { m with speed_m_s := v }
  | .weight_kg, v => { m with weight_kg := v }
  | .turning_radius_mm, v => { m with turning_radius_mm := v }
  | .lift_height_mm, v => { m with lift_height_mm := v }

/-- The value field a canonical name denotes, if any (`source_id` and
`tool_trace` are dataclass fields too, but their merge-time writes are
overwritten by the merger's final two assignments). -/
def fieldOfName (k : String) : Option CanonField :=
  if k = "device_name" then some .device_name
  else if k = "vendor" then some .vendor
  else if k = "length_mm" then some .length_mm
  else if k = "width_mm" then some .width_mm
  else if k = "height_mm" then some .height_mm
  else if k = "payload_kg" then some .payload_kg
  else if k = "speed_m_s" then some .speed_m_s
  else if k = "weight_kg" then some .weight_kg
  else if k = "turning_radius_mm" then some .turning_radius_mm
  else if k = "lift_height_mm" then some .lift_height_mm
  else none

/-- `{f.name for f in dc_fields(AGVSpec) if not f.name.startswith("_")}` in
`agent/merge.py`: the twelve non-underscore dataclass field names. -/
def canonicalNames : List String :=
  ["source_id", "tool_trace", "device_name", "vendor", "length_mm", "width_mm",
   "height_mm", "payload_kg", "speed_m_s", "weight_kg", "turning_radius_mm",
   "lift_height_mm"]

/-! ## Merger (`agent/merge.py`) -/

/-- One entry of the merger's `best` dict: `(conf, val, ev)`. -/
structure BestE where
  conf : Rat
  val : Val
  ev : Option Evidence
deriving DecidableEq

/-- The body of the merge loop for a single `(field, val)` item of one
candidate's `fields` dict. -/
def mergeField (c : Candidate) (best : List (String × BestE)) (f : String)
    (v : Option Val) : List (String × BestE) :=
  if canonicalNames.contains f then
    match v with
    | none => best
    | some w =>
      match lookupKey best f with
      | none =>
        setKey best f ⟨(lookupKey c.confidence f).getD 0, w, lookupKey c.evidence f⟩
      | some e =>
        if e.conf < (lookupKey c.confidence f).getD 0 then
          setKey best f ⟨(lookupKey c.confidence f).getD 0, w, lookupKey c.evidence f⟩
        else best
  else best

/-- Fold one candidate's `fields` dict into `best`. -/
def mergeCand (best : List (String × BestE)) (c : Candidate) :
    List (String × BestE) :=
  c.fields.foldl (fun b p => mergeField c b p.1 p.2) best

/-- The `best` dict after the double loop of `merge_candidates`. -/
def bestMap (cands : List Candidate) : List (String × BestE) :=
  cands.foldl mergeCand []

/-- Write one `best` item onto the merged record: `setattr` (writes to
`source_id`/`tool_trace` are dropped here because the merger's last two
statements overwrite them unconditionally), then the `_evidence` and
`_confidence` side maps. -/
def applyOne (m : AGVSpec) (k : String) (e : BestE) : AGVSpec :=
  let m1 := match fieldOfName k with
    | some cf => m.setV cf (some e.val)
    | none => m
  let m2 := match e.ev with
    | some ev => { m1 with evidenceMap := setKey m1.evidenceMap k ev }
    | none => m1
  { m2 with confidenceMap := setKey m2.confidenceMap k e.conf }

def applyBest (m : AGVSpec) (best : List (String × BestE)) : AGVSpec :=
  best.foldl (fun acc p => applyOne acc p.1 p.2) m

/-- `merge_candidates` of `agent/merge.py`. -/
def merge_candidates (cands : List Candidate) : AGVSpec :=
  match cands with
  | [] => {}
  | c0 :: rest =>
    { applyBest {} (bestMap (c0 :: rest)) with
      source_id := some (((c0 :: rest).getLast (by simp)).source_id)
      tool_trace := (c0 :: rest).map (·.tool) }

/-! ## Completeness scorer (`agent/scoring.py`) -/

def CORE_FIELDS : List CanonField :=
  [.device_name, .length_mm, .width_mm, .height_mm, .payload_kg, .speed_m_s]

/-- One core field's contribution: non-null, and for strings non-blank
(Python `v.strip()` empty iff every character is whitespace). -/
def isFilled : Option Val → Bool
  | none => false
  | some (.str s) => !(s.data.all Char.isWhitespace)
  | some _ => true

/-- `completeness_score` of `agent/scoring.py`. -/
def completeness_score (m : AGVSpec) : Rat :=
  ((CORE_FIELDS.countP (fun f => isFilled (m.get f))) : Rat) / 6

/-! ## Spec-side selection function used to state the merge claims -/

/-- The value a candidate supplies (non-null) under key `k`. -/
def valOf (c : Candidate) (k : String) : Option Val :=
  match lookupKey c.fields k with
  | some (some v) => some v
  | _ => none

/-- A candidate proposes field `k` iff it has a non-null value for it. -/
def proposesB (c : Candidate) (k : String) : Bool := (valOf c k).isSome

/-- The confidence a candidate brings for key `k`: its `confidence` dict
entry, defaulting to `0.0` (`cand.confidence.get(field, 0.0)`). -/
def propConf (c : Candidate) (k : String) : Rat :=
  (lookupKey c.confidence k).getD 0

/-- One step of the winner selection: a later proposer replaces the current
winner only with strictly greater confidence. -/
def selStep (k : String) (w : Option Candidate) (c : Candidate) :
    Option Candidate :=
  if proposesB c k then
    match w with
    | none => some c
    | some w0 => if propConf w0 k < propConf c k then some c else some w0
  else w

/-- The candidate whose proposal for key `k` the merge keeps: the earliest
candidate attaining the maximum confidence among proposers. -/
def selectWinner (cands : List Candidate) (k : String) : Option Candidate :=
  cands.foldl (selStep k) none

/-- The `(conf, val, ev)` triple candidate `c` offers for key `k`. -/
def entryOf (k : String) (c : Candidate) : Option BestE :=
  (valOf c k).map (fun v => ⟨propConf c k, v, lookupKey c.evidence k⟩)

/-- How the merge combines the current best entry with a new offer:
strictly-greater-confidence wins, first-at-max kept on ties. -/
def combineE (e o : Option BestE) : Option BestE :=
  match o with
  | none => e
  | some o2 =>
    match e with
    | none => some o2
    | some e2 => if e2.conf < o2.conf then some o2 else some e2

/-! ## Text utilities used by the normalizer -/

def toLowerL (l : List Char) : List Char := l.map Char.toLower

def startsWithB : List Char → List Char → Bool
  | [], _ => true
  | _ :: _, [] => false
  | a :: xs, b :: ys => a == b && startsWithB xs ys

/-- Python `needle in hay` on strings (substring containment). -/
def containsSubB : List Char → List Char → Bool
  | [], needle => needle.isEmpty
  | c :: cs, needle => startsWithB needle (c :: cs) || containsSubB cs needle

def hasFrag (kl : List Char) (frag : String) : Bool := containsSubB kl frag.data

/-! ## Numeric parsing (`schema/normalize.py`) -/

/-- The maximal match of `\d+(\.\d+)?` at the start of `cs`, whose head is
known to be a digit. -/
def numeralCore (cs : List Char) : List Char :=
  let ds := cs.takeWhile Char.isDigit
  let r := cs.dropWhile Char.isDigit
  match r with
  | '.' :: r2 =>
    let fs := r2.takeWhile Char.isDigit
    if fs.isEmpty then ds else ds ++ '.' :: fs
  | _ => ds

/-- A match of `[-+]?\d+(\.\d+)?` starting exactly here, if any. -/
def matchSignedAt : List Char → Option (List Char)
  | [] => none
  | ch :: cs =>
    if ch = '-' ∨ ch = '+' then
      match cs with
      | c2 :: _ => if c2.isDigit then some (ch :: numeralCore cs) else none
      | [] => none
    else if ch.isDigit then some (numeralCore (ch :: cs))
    else none

/-- `re.search(r"[-+]?\d+(\.\d+)?", s)`: the leftmost match. -/
def searchNumber : List Char → Option (List Char)
  | [] => none
  | c :: cs =>
    match matchSignedAt (c :: cs) with
    | some m => some m
    | none => searchNumber cs

def natOfDigits (ds : List Char) : Nat :=
  ds.foldl (fun n c => 10 * n + (c.toNat - '0'.toNat)) 0

/-- `float(...)` applied to a matched numeral token
(`sign? digits (. digits)?`), as an exact rational
`sign * (ip + fp / 10 ^ |fp|)` built with `mkRat`. -/
def ratOfNumeral (cs : List Char) : Rat :=
  let p := match cs with
    | '-' :: r => ((-1 : Int), r)
    | '+' :: r => ((1 : Int), r)
    | r => ((1 : Int), r)
  let ip := p.2.takeWhile Char.isDigit
  let rest := p.2.dropWhile Char.isDigit
  let fp := match rest with
    | '.' :: r2 => r2.takeWhile Char.isDigit
    | _ => []
  mkRat (p.1 * (natOfDigits ip * 10 ^ fp.length + natOfDigits fp))
    (10 ^ fp.length)

/-- `_to_float` of `schema/normalize.py`: replace `,` by `.`, search the
first `[-+]?\d+(\.\d+)?`, convert; `None` when nothing matches. -/
def to_float_chars (l : List Char) : Option Rat :=
  (searchNumber (l.map (fun ch => if ch = ',' then '.' else ch))).map ratOfNumeral

def to_float (s : String) : Option Rat := to_float_chars s.data

/-- A match of `\d+(?:[.,]\d+)?` starting exactly here: the token and the
rest of the input after it. -/
def matchDimNumAt : List Char → Option (List Char × List Char)
  | [] => none
  | ch :: cs =>
    if ch.isDigit then
      let ds := (ch :: cs).takeWhile Char.isDigit
      let r1 := (ch :: cs).dropWhile Char.isDigit
      match r1 with
      | sep :: r2 =>
        if sep = '.' ∨ sep = ',' then
          let fs := r2.takeWhile Char.isDigit
          if fs.isEmpty then some (ds, r1)
          else some (ds ++ sep :: fs, r2.dropWhile Char.isDigit)
        else some (ds, r1)
      | [] => some (ds, [])
    else none

/-- `re.findall(r"\d+(?:[.,]\d+)?", t)`: all non-overlapping matches, left
to right.  Each successful match consumes at least one character, so fuel
equal to the input length is enough. -/
def findAllNumsAux : Nat → List Char → List (List Char)
  | 0, _ => []
  | _ + 1, [] => []
  | fuel + 1, c :: cs =>
    match matchDimNumAt (c :: cs) with
    | some (m, rest) => m :: findAllNumsAux fuel rest
    | none => findAllNumsAux fuel cs

def findAllNums (l : List Char) : List (List Char) := findAllNumsAux l.length l

/-- The `replace("Ã—", "x")` of `_parse_dimensions_mm` (the mojibake of a
multiplication sign in the Python source), left to right. -/
def replaceTimes : List Char → List Char
  | 'Ã' :: '—' :: rest => 'x' :: replaceTimes rest
  | c :: rest => c :: replaceTimes rest
  | [] => []

/-- The numeral tokens `_parse_dimensions_mm` finds in a value string. -/
def dimNumerals (text : String) : List (List Char) :=
  findAllNums (replaceTimes (toLowerL text.data))

/-- `_parse_dimensions_mm` of `schema/normalize.py`: first three numbers of
the lowered text, or three `None`s when fewer than three are found. -/
def parse_dimensions_mm (text : String) :
    Option Rat × Option Rat × Option Rat :=
  match dimNumerals text with
  | a :: b :: c :: _ => (to_float_chars a, to_float_chars b, to_float_chars c)
  | _ => (none, none, none)

/-! ## Normalizer (`schema/normalize.py`) -/

/-- Python truthiness of a field value (`x or y` takes `x` when truthy). -/
def truthy : Val → Bool
  | .num q => q ≠ 0
  | .str s => s ≠ ""
  | .kv t => !t.isEmpty

/-- Python `a or b` over nullable field values. -/
def pyOr (a b : Option Val) : Option Val :=
  match a with
  | some v => if truthy v then some v else b
  | none => b

/-- `fields.get(k)` flattened: `None` when the key is absent or holds null. -/
def flatVal (fs : List (String × Option Val)) (k : String) : Option Val :=
  match lookupKey fs k with
  | some (some v) => some v
  | _ => none

/-- Does a lowered raw key mention dimensions
(`"abmess" in kl or "abmasse" in kl or "dimensions" in kl`)? -/
def dimFragB (kl : List Char) : Bool :=
  hasFrag kl "abmess" || hasFrag kl "abmasse" || hasFrag kl "dimensions"

/-- Conditionally write one canonical field (`if <fragment match>:
fields[dst] = _to_float(v)`). -/
def condSet (b : Bool) (fs : List (String × Option Val)) (k : String)
    (v : Option Val) : List (String × Option Val) :=
  if b then setKey fs k v else fs

/-- Write the three parsed dimension fields
(`fields["length_mm"] = l` etc., possibly `None`). -/
def setDims (fs : List (String × Option Val))
    (d : Option Rat × Option Rat × Option Rat) : List (String × Option Val) :=
  setKey (setKey (setKey fs "length_mm" (d.1.map .num))
    "width_mm" (d.2.1.map .num)) "height_mm" (d.2.2.map .num)

def condSetDims (b : Bool) (fs : List (String × Option Val))
    (d : Option Rat × Option Rat × Option Rat) : List (String × Option Val) :=
  if b then setDims fs d else fs

/-- The body of the `for k, v in kv.items()` loop of `normalize_candidate`:
one raw key/value row rewrites the canonical fields its key's vocabulary
fragments match (each `if` is independent and sequential: dimensions,
payload, speed, weight, turning radius, lift height). -/
def applyKVEntry (fs : List (String × Option Val)) (k v : String) :
    List (String × Option Val) :=
  condSet (hasFrag (toLowerL k.data) "hubh" || hasFrag (toLowerL k.data) "lift")
    (condSet (hasFrag (toLowerL k.data) "drehkreis"
        || hasFrag (toLowerL k.data) "turn")
      (condSet (hasFrag (toLowerL k.data) "eigengewicht"
          || hasFrag (toLowerL k.data) "weight")
        (condSet (hasFrag (toLowerL k.data) "geschwind"
            || hasFrag (toLowerL k.data) "speed")
          (condSet (hasFrag (toLowerL k.data) "trag"
              || hasFrag (toLowerL k.data) "payload"
              || hasFrag (toLowerL k.data) "last")
            (condSetDims (dimFragB (toLowerL k.data)) fs
              (parse_dimensions_mm v))
            "payload_kg" ((to_float v).map .num))
          "speed_m_s" ((to_float v).map .num))
        "weight_kg" ((to_float v).map .num))
      "turning_radius_mm" ((to_float v).map .num))
    "lift_height_mm" ((to_float v).map .num)

/-- The `_kv` block of `normalize_candidate`: fold the raw table's rows
over the fields dict (in table order). -/
def normStepKV (fs : List (String × Option Val)) : List (String × Option Val) :=
  match lookupKey fs "_kv" with
  | some (some (.kv kvl)) =>
    kvl.foldl (fun fs2 p => applyKVEntry fs2 p.1 p.2) fs
  | _ => fs

/-- The `abmasse` block: a string-valued `abmasse` field fills any
dimension whose current value is Python-falsy (`fields.get(...) or l`). -/
def normStepAbmasse (fs : List (String × Option Val)) :
    List (String × Option Val) :=
  match lookupKey fs "abmasse" with
  | some (some (.str s)) =>
    setKey (setKey (setKey fs
      "length_mm" (pyOr (flatVal fs "length_mm")
        ((parse_dimensions_mm s).1.map .num)))
      "width_mm" (pyOr (flatVal fs "width_mm")
        ((parse_dimensions_mm s).2.1.map .num)))
      "height_mm" (pyOr (flatVal fs "height_mm")
        ((parse_dimensions_mm s).2.2.map .num))
  | _ => fs

/-- One AGILOX alias block: a string-valued raw field fills the canonical
field only when that canonical field is currently null or absent. -/
def normStepAlias (src dst : String) (fs : List (String × Option Val)) :
    List (String × Option Val) :=
  match lookupKey fs src with
  | some (some (.str s)) =>
    if (flatVal fs dst).isNone then setKey fs dst ((to_float s).map .num)
    else fs
  | _ => fs

/-- The device-name block: copy `device` to `device_name` when the latter
key is absent and the former present. -/
def normStepDevice (fs : List (String × Option Val)) :
    List (String × Option Val) :=
  if (lookupKey fs "device_name").isNone ∧ (lookupKey fs "device").isSome then
    setKey fs "device_name" ((lookupKey fs "device").join)
  else fs

/-- The vendor block: copy the original candidate's `vendor` when the
current dict has no `vendor` key and the original had one. -/
def normStepVendor (orig fs : List (String × Option Val)) :
    List (String × Option Val) :=
  if (lookupKey fs "vendor").isNone ∧ (lookupKey orig "vendor").isSome then
    setKey fs "vendor" ((lookupKey orig "vendor").join)
  else fs

/-- `normalize_candidate` of `schema/normalize.py`: the `_kv` table block,
the `abmasse` block, the four AGILOX alias blocks, then device/vendor
naming. -/
def normalize_candidate (c : Candidate) : Candidate :=
  { c with fields :=
      (normStepVendor c.fields
        (normStepDevice
          (normStepAlias "max_hubhoehe" "lift_height_mm"
            (normStepAlias "drehkreis" "turning_radius_mm"
              (normStepAlias "eigengewicht" "weight_kg"
                (normStepAlias "max_last" "payload_kg"
                  (normStepAbmasse (normStepKV c.fields)))))))) }

/-! ## Validator (`schema/validate.py`) -/

/-- `penalize` multiplies an existing confidence entry by 0.5 in place; an
absent key is left untouched, exactly like
`if key in c.confidence: c.confidence[key] *= factor`. -/
def halveKey : List (String × Rat) → String → List (String × Rat)
  | [], _ => []
  | (k0, v0) :: t, k =>
    (k0, if k0 = k then v0 * (1 / 2) else v0) :: halveKey t k

def condHalve (b : Bool) (conf : List (String × Rat)) (k : String) :
    List (String × Rat) :=
  if b then halveKey conf k else conf

/-- The payload plausibility test: a numeric `payload_kg` value outside
`(0, 100000]`. -/
def badPayload (c : Candidate) : Bool :=
  match lookupKey c.fields "payload_kg" with
  | some (some (.num x)) => decide (x ≤ 0) || decide (100000 < x)
  | _ => false

/-- The dimension plausibility test: a numeric value outside `(0, 50000]`. -/
def badDim (c : Candidate) (k : String) : Bool :=
  match lookupKey c.fields k with
  | some (some (.num x)) => decide (x ≤ 0) || decide (50000 < x)
  | _ => false

/-- `validate_candidate` of `schema/validate.py`. -/
def validate_candidate (c : Candidate) : Candidate :=
  let conf1 := condHalve (badPayload c) c.confidence "payload_kg"
  let conf2 := condHalve (badDim c "length_mm") conf1 "length_mm"
  let conf3 := condHalve (badDim c "width_mm") conf2 "width_mm"
  let conf4 := condHalve (badDim c "height_mm") conf3 "height_mm"
  { c with confidence := conf4 }

/-! ## Candidate constructors (`schema/models.py`) -/

/-- `AGVSpecCandidate.from_key_values`: the whole raw table under the
reserved `_kv` key, one flat confidence `0.55` and one evidence preview. -/
def from_key_values (kv : List (String × String)) (source_id tool : String) :
    Candidate :=
  { source_id := source_id
    tool := tool
    fields := [("_kv", some (.kv kv))]
    confidence := [("_kv", (0.55 : Rat))]
    evidence := [("_kv",
      ⟨some (String.intercalate "; " ((kv.take 5).map (fun p => p.1 ++ ": " ++ p.2))),
       some tool, some source_id⟩)] }

/-! ## Orchestrator (`agent/orchestrator.py`) -/

def looks_like_agilox (text : String) : Bool :=
  let t := toLowerL text.data
  hasFrag t "agilox" || hasFrag t "nfk" || hasFrag t "drehkreis" ||
    hasFrag t "eigengewicht"

/-- `_tool_plan_for_text`. -/
def tool_plan_for_text (text : String) : List String :=
  if looks_like_agilox text then ["regex_agilox", "key_value", "llm"]
  else ["key_value", "regex_generic", "llm"]

/-- Lines 121-124 of `run_extraction_auto`: plan, drop `llm` when no backend
is configured, truncate to the step budget (in that order). -/
def docTools (text : String) (llm_backend : String) (max_steps : Nat) :
    List String :=
  (if llm_backend = "none" then
    (tool_plan_for_text text).filter (fun t => !(t = "llm"))
  else tool_plan_for_text text).take max_steps

/-- `normalize_candidate` then `validate_candidate`, as the loop applies
them to each raw candidate a tool returns. -/
def procCand (c : Candidate) : Candidate :=
  validate_candidate (normalize_candidate c)

/-- The per-document tool loop of `run_extraction_auto`, parameterized by
what each tool returns for this document (`candsOf`).  Returns the tools
actually executed and the cumulative candidate list. -/
def runLoop (candsOf : String → List Candidate) (thr : Rat) :
    List String → List Candidate → List String × List Candidate
  | [], acc => ([], acc)
  | t :: ts, acc =>
    let acc2 := acc ++ (candsOf t).map procCand
    if thr ≤ completeness_score (merge_candidates acc2) then ([t], acc2)
    else
      let r := runLoop candsOf thr ts acc2
      (t :: r.1, r.2)

/-- One document's processing: plan, loop, final merge.  Returns the final
record and the executed tool sequence. -/
def runDocument (candsOf : String → List Candidate) (text : String)
    (thr : Rat) (max_steps : Nat) (llm_backend : String) :
    AGVSpec × List String :=
  let tools := docTools text llm_backend max_steps
  let r := runLoop candsOf thr tools []
  (merge_candidates r.2, r.1)

/-- The candidates accumulated through step `k` of a run over `tools`:
nothing is ever removed, each step appends its tool's processed output. -/
def accThrough (candsOf : String → List Candidate) (tools : List String)
    (k : Nat) : List Candidate :=
  (tools.take k).flatMap (fun t => (candsOf t).map procCand)

/-- The planned tool sequence as §4.2 step 1 of the spec words it: truncate
to the step budget FIRST, then drop the model-assisted tool when no backend
is configured.  (`docTools` models the code, which drops first and then
truncates; claim C8 is that the two agree.) -/
def plannedToolsSpec (text : String) (llm_backend : String) (max_steps : Nat) :
    List String :=
  let truncated := (tool_plan_for_text text).take max_steps
  if llm_backend = "none" then truncated.filter (fun t => !(t = "llm"))
  else truncated

/-! ## Input iteration (`utils/io.py`) -/

/-- Insertion sort on strings (Python `sorted` over names in one folder). -/
def insSorted (s : String) : List String → List String
  | [] => [s]
  | t :: ts => if s ≤ t then s :: t :: ts else t :: insSorted s ts

def sortStr (l : List String) : List String := l.foldr insSorted []

/-- `pathlib.Path.stem`: the name without its last suffix; a suffix needs a
dot at position `0 < i < len - 1` (hidden files and trailing dots have no
suffix). -/
def stem (s : String) : String :=
  let cs := s.data
  match (cs.reverse.findIdx? (· = '.')).map (fun j => cs.length - 1 - j) with
  | some i => if 0 < i ∧ i < cs.length - 1 then ⟨cs.take i⟩ else s
  | none => s

def endsWithB (sfx s : String) : Bool :=
  startsWithB sfx.data.reverse s.data.reverse

/-- The input path as `iter_inputs` can see it: an existing file, a
directory with its entry names, or neither. -/
inductive InputPath where
  | file (name : String)
  | dir (entries : List String)
  | missing (path : String)

/-- `iter_inputs` of `utils/io.py`: a file yields itself; a directory
yields its sorted `*.pdf` names, then the sorted `*.txt` names whose stem
no PDF shares; anything else raises `FileNotFoundError`. -/
def iter_inputs : InputPath → Except String (List String)
  | .file n => .ok [n]
  | .dir es =>
    let pdfs := sortStr (es.filter (fun f => endsWithB ".pdf" f))
    let pdfStems := pdfs.map stem
    .ok (pdfs ++ (sortStr (es.filter (fun f => endsWithB ".txt" f))).filter
      (fun f => !(pdfStems.contains (stem f))))
  | .missing p => .error p

/-! ## Association-list lemmas -/

theorem lookupKey_setKey_self {α : Type} (l : List (String × α)) (k : String)
    (v : α) : lookupKey (setKey l k v) k = some v := by
  induction l with
  | nil => simp [setKey, lookupKey]
  | cons p t ih =>
    by_cases h : p.1 = k
    · simp only [setKey]
      rcases p with ⟨k', v'⟩
      simp only at h
      simp [h, lookupKey]
    · rcases p with ⟨k', v'⟩
      simp only at h
      simp only [setKey, if_neg h, lookupKey, if_neg h]
      exact ih

theorem lookupKey_setKey_ne {α : Type} (l : List (String × α)) (k k' : String)
    (v : α) (h : k ≠ k') : lookupKey (setKey l k v) k' = lookupKey l k' := by
  induction l with
  | nil => simp [setKey, lookupKey, h]
  | cons p t ih =>
    rcases p with ⟨k0, v0⟩
    by_cases h0 : k0 = k
    · subst h0
      simp [setKey, lookupKey, h]
    · simp only [setKey, if_neg h0, lookupKey]
      by_cases h1 : k0 = k'
      · simp [h1]
      · simp [h1, ih]

theorem keysOf_setKey_mem {α : Type} (l : List (String × α)) (k : String)
    (v : α) (h : k ∈ keysOf l) : keysOf (setKey l k v) = keysOf l := by
  induction l with
  | nil => simp [keysOf] at h
  | cons p t ih =>
    rcases p with ⟨k0, v0⟩
    by_cases h0 : k0 = k
    · subst h0
      simp [setKey, keysOf]
    · simp only [keysOf, List.map_cons, List.mem_cons] at h
      rcases h with h | h
      · exact absurd h.symm h0
      · simp only [setKey, if_neg h0, keysOf, List.map_cons]
        have := ih (by simpa [keysOf] using h)
        simp only [keysOf] at this
        rw [this]

theorem keysOf_setKey_not_mem {α : Type} (l : List (String × α)) (k : String)
    (v : α) (h : k ∉ keysOf l) : keysOf (setKey l k v) = keysOf l ++ [k] := by
  induction l with
  | nil => simp [setKey, keysOf]
  | cons p t ih =>
    rcases p with ⟨k0, v0⟩
    simp only [keysOf, List.map_cons, List.mem_cons] at h
    push_neg at h
    simp only [setKey, if_neg (Ne.symm h.1), keysOf, List.map_cons, List.cons_append]
    have := ih (by simpa [keysOf] using h.2)
    simp only [keysOf] at this
    rw [this]

theorem nodupKeys_setKey {α : Type} (l : List (String × α)) (k : String)
    (v : α) (h : nodupKeys l) : nodupKeys (setKey l k v) := by
  unfold nodupKeys at *
  by_cases hm : k ∈ keysOf l
  · rw [keysOf_setKey_mem l k v hm]; exact h
  · rw [keysOf_setKey_not_mem l k v hm]
    rw [List.nodup_append]
    exact ⟨h, List.nodup_singleton k, by
      intro a ha hb
      simp only [List.mem_singleton] at hb
      subst hb
      exact hm ha⟩

theorem lookupKey_isSome_of_mem {α : Type} (l : List (String × α)) (k : String)
    (h : k ∈ keysOf l) : (lookupKey l k).isSome := by
  induction l with
  | nil => simp [keysOf] at h
  | cons p t ih =>
    rcases p with ⟨k0, v0⟩
    by_cases h0 : k0 = k
    · simp [lookupKey, h0]
    · simp only [keysOf, List.map_cons, List.mem_cons] at h
      rcases h with h | h
      · exact absurd h.symm h0
      · simp only [lookupKey, if_neg h0]
        exact ih (by simpa [keysOf] using h)

theorem lookupKey_eq_none_of_not_mem {α : Type} (l : List (String × α))
    (k : String) (h : k ∉ keysOf l) : lookupKey l k = none := by
  induction l with
  | nil => rfl
  | cons p t ih =>
    rcases p with ⟨k0, v0⟩
    simp only [keysOf, List.map_cons, List.mem_cons] at h
    push_neg at h
    simp only [lookupKey, if_neg (Ne.symm h.1)]
    exact ih (by simpa [keysOf] using h.2)

/-! ## Validator lemmas -/

theorem lookupKey_halveKey_self (conf : List (String × Rat)) (k : String) :
    lookupKey (halveKey conf k) k = (lookupKey conf k).map (· * (1 / 2)) := by
  induction conf with
  | nil => rfl
  | cons p t ih =>
    rcases p with ⟨k0, v0⟩
    by_cases h0 : k0 = k
    · subst h0
      simp [halveKey, lookupKey]
    · simp [halveKey, lookupKey, h0, ih]

theorem lookupKey_halveKey_ne (conf : List (String × Rat)) (k k' : String)
    (h : k ≠ k') : lookupKey (halveKey conf k) k' = lookupKey conf k' := by
  induction conf with
  | nil => rfl
  | cons p t ih =>
    rcases p with ⟨k0, v0⟩
    by_cases h0 : k0 = k
    · subst h0
      simp [halveKey, lookupKey, h, ih]
    · by_cases h1 : k0 = k'
      · subst h1
        simp [halveKey, lookupKey, h0]
      · simp [halveKey, lookupKey, h0, h1, ih]

theorem lookupKey_condHalve_self (b : Bool) (conf : List (String × Rat))
    (k : String) :
    lookupKey (condHalve b conf k) k
      = if b then (lookupKey conf k).map (· * (1 / 2)) else lookupKey conf k := by
  cases b <;> simp [condHalve, lookupKey_halveKey_self]

theorem lookupKey_condHalve_ne (b : Bool) (conf : List (String × Rat))
    (k k' : String) (h : k ≠ k') :
    lookupKey (condHalve b conf k) k' = lookupKey conf k' := by
  cases b <;> simp [condHalve, lookupKey_halveKey_ne _ _ _ h]

theorem keysOf_halveKey (conf : List (String × Rat)) (k : String) :
    keysOf (halveKey conf k) = keysOf conf := by
  induction conf with
  | nil => rfl
  | cons p t ih =>
    rcases p with ⟨k0, v0⟩
    have ih' : List.map Prod.fst (halveKey t k) = List.map Prod.fst t := ih
    by_cases h0 : k0 = k
    · subst h0
      simp [halveKey, keysOf, ih']
    · simp [halveKey, keysOf, h0, ih']

theorem keysOf_condHalve (b : Bool) (conf : List (String × Rat)) (k : String) :
    keysOf (condHalve b conf k) = keysOf conf := by
  cases b <;> simp [condHalve, keysOf_halveKey]

/-- The combined per-key penalty factor `validate_candidate` applies. -/
def penaltyFactor (c : Candidate) (k : String) : Rat :=
  if (k = "payload_kg" ∧ badPayload c) ∨ (k = "length_mm" ∧ badDim c "length_mm")
      ∨ (k = "width_mm" ∧ badDim c "width_mm")
      ∨ (k = "height_mm" ∧ badDim c "height_mm") then 1 / 2 else 1

theorem validate_confidence_lookup (c : Candidate) (k : String) :
    lookupKey (validate_candidate c).confidence k
      = (lookupKey c.confidence k).map (· * penaltyFactor c k) := by
  show lookupKey (condHalve (badDim c "height_mm")
    (condHalve (badDim c "width_mm") (condHalve (badDim c "length_mm")
      (condHalve (badPayload c) c.confidence "payload_kg") "length_mm")
      "width_mm") "height_mm") k = _
  by_cases hk : k = "height_mm"
  · subst hk
    rw [lookupKey_condHalve_self,
      lookupKey_condHalve_ne _ _ _ _ (by decide),
      lookupKey_condHalve_ne _ _ _ _ (by decide),
      lookupKey_condHalve_ne _ _ _ _ (by decide)]
    unfold penaltyFactor
    cases hb : badDim c "height_mm" <;> simp [hb]
  by_cases hk2 : k = "width_mm"
  · subst hk2
    rw [lookupKey_condHalve_ne _ _ _ _ (by decide), lookupKey_condHalve_self,
      lookupKey_condHalve_ne _ _ _ _ (by decide),
      lookupKey_condHalve_ne _ _ _ _ (by decide)]
    unfold penaltyFactor
    cases hb : badDim c "width_mm" <;> simp [hb]
  by_cases hk3 : k = "length_mm"
  · subst hk3
    rw [lookupKey_condHalve_ne _ _ _ _ (by decide),
      lookupKey_condHalve_ne _ _ _ _ (by decide), lookupKey_condHalve_self,
      lookupKey_condHalve_ne _ _ _ _ (by decide)]
    unfold penaltyFactor
    cases hb : badDim c "length_mm" <;> simp [hb]
  by_cases hk4 : k = "payload_kg"
  · subst hk4
    rw [lookupKey_condHalve_ne _ _ _ _ (by decide),
      lookupKey_condHalve_ne _ _ _ _ (by decide),
      lookupKey_condHalve_ne _ _ _ _ (by decide), lookupKey_condHalve_self]
    unfold penaltyFactor
    cases hb : badPayload c <;> simp [hb]
  · rw [lookupKey_condHalve_ne _ _ _ _ (fun h => hk h.symm),
      lookupKey_condHalve_ne _ _ _ _ (fun h => hk2 h.symm),
      lookupKey_condHalve_ne _ _ _ _ (fun h => hk3 h.symm),
      lookupKey_condHalve_ne _ _ _ _ (fun h => hk4 h.symm)]
    unfold penaltyFactor
    simp [hk, hk2, hk3, hk4]

theorem validate_keys (c : Candidate) :
    keysOf (validate_candidate c).confidence = keysOf c.confidence := by
  show keysOf (condHalve _ (condHalve _ (condHalve _ (condHalve _ _ _) _) _) _) = _
  rw [keysOf_condHalve, keysOf_condHalve, keysOf_condHalve, keysOf_condHalve]

/-! ## Scoring lemmas -/

theorem completeness_score_nonneg (m : AGVSpec) : 0 ≤ completeness_score m := by
  unfold completeness_score
  positivity

theorem completeness_score_le_one (m : AGVSpec) : completeness_score m ≤ 1 := by
  unfold completeness_score
  rw [div_le_one (by norm_num)]
  have h := List.countP_le_length (l := CORE_FIELDS)
    (p := fun f => isFilled (m.get f))
  calc ((CORE_FIELDS.countP (fun f => isFilled (m.get f))) : Rat)
      ≤ (CORE_FIELDS.length : Rat) := by exact_mod_cast h
    _ = 6 := by norm_num [CORE_FIELDS]

theorem completeness_score_congr (m1 m2 : AGVSpec)
    (h : ∀ f ∈ CORE_FIELDS, m1.get f = m2.get f) :
    completeness_score m1 = completeness_score m2 := by
  unfold completeness_score
  have hc : List.countP (fun f => isFilled (m1.get f)) CORE_FIELDS
      = List.countP (fun f => isFilled (m2.get f)) CORE_FIELDS :=
    List.countP_congr (fun f hf => by rw [h f hf])
  rw [hc]

/-- When some core field is unfilled the score is strictly below 1. -/
theorem completeness_score_lt_one (m : AGVSpec)
    (h : ∃ f ∈ CORE_FIELDS, isFilled (m.get f) = false) :
    completeness_score m < 1 := by
  unfold completeness_score
  rw [div_lt_one (by norm_num)]
  have hle := List.countP_le_length (l := CORE_FIELDS)
    (p := fun f => isFilled (m.get f))
  have hne : CORE_FIELDS.countP (fun f => isFilled (m.get f))
      ≠ CORE_FIELDS.length := by
    intro heq
    rcases h with ⟨f, hf, hbad⟩
    have := List.countP_eq_length.1 heq f hf
    rw [hbad] at this
    exact Bool.false_ne_true this
  have : CORE_FIELDS.countP (fun f => isFilled (m.get f)) < CORE_FIELDS.length :=
    lt_of_le_of_ne hle hne
  calc ((CORE_FIELDS.countP (fun f => isFilled (m.get f))) : Rat)
      < (CORE_FIELDS.length : Rat) := by exact_mod_cast this
    _ = 6 := by norm_num [CORE_FIELDS]

/-! ## Claim theorems: validator and scorer -/

/-- C3: `validate_candidate` halves the recorded confidence of
`payload_kg` exactly when its numeric value lies outside `(0, 100000]`,
and of each dimension field exactly when its numeric value lies outside
`(0, 50000]`; all other confidence entries are untouched.  The boundary
facts of the claim (payload exactly 100000 not penalized, 100000.01 and
non-positive values penalized) are instances of the `badPayload` iff. -/
theorem validate_plausibility_ranges (c : Candidate) :
    (lookupKey (validate_candidate c).confidence "payload_kg"
      = if badPayload c then
          (lookupKey c.confidence "payload_kg").map (· * (1 / 2))
        else lookupKey c.confidence "payload_kg") ∧
    (lookupKey (validate_candidate c).confidence "length_mm"
      = if badDim c "length_mm" then
          (lookupKey c.confidence "length_mm").map (· * (1 / 2))
        else lookupKey c.confidence "length_mm") ∧
    (lookupKey (validate_candidate c).confidence "width_mm"
      = if badDim c "width_mm" then
          (lookupKey c.confidence "width_mm").map (· * (1 / 2))
        else lookupKey c.confidence "width_mm") ∧
    (lookupKey (validate_candidate c).confidence "height_mm"
      = if badDim c "height_mm" then
          (lookupKey c.confidence "height_mm").map (· * (1 / 2))
        else lookupKey c.confidence "height_mm") ∧
    (badPayload c = true ↔ ∃ x : Rat,
      lookupKey c.fields "payload_kg" = some (some (.num x)) ∧
        (x ≤ 0 ∨ 100000 < x)) ∧
    (∀ k : String, badDim c k = true ↔ ∃ x : Rat,
      lookupKey c.fields k = some (some (.num x)) ∧ (x ≤ 0 ∨ 50000 < x)) := by
  refine ⟨?_, ?_, ?_, ?_, ?_, ?_⟩
  · rw [validate_confidence_lookup]
    unfold penaltyFactor
    cases hb : badPayload c <;>
      simp [hb] <;> cases lookupKey c.confidence "payload_kg" <;> simp
  · rw [validate_confidence_lookup]
    unfold penaltyFactor
    cases hb : badDim c "length_mm" <;>
      simp [hb] <;> cases lookupKey c.confidence "length_mm" <;> simp
  · rw [validate_confidence_lookup]
    unfold penaltyFactor
    cases hb : badDim c "width_mm" <;>
      simp [hb] <;> cases lookupKey c.confidence "width_mm" <;> simp
  · rw [validate_confidence_lookup]
    unfold penaltyFactor
    cases hb : badDim c "height_mm" <;>
      simp [hb] <;> cases lookupKey c.confidence "height_mm" <;> simp
  · unfold badPayload
    rcases hlk : lookupKey c.fields "payload_kg" with _ | v
    · simp
    · rcases v with _ | w
      · simp
      · rcases w with x | s | t <;> simp
  · intro k
    unfold badDim
    rcases hlk : lookupKey c.fields k with _ | v
    · simp
    · rcases v with _ | w
      · simp
      · rcases w with x | s | t <;> simp

/-- C5: the completeness score is exactly the filled-core-field count over
six, lies in `[0, 1]`, and depends on nothing but the six core fields. -/
theorem completeness_score_core_fields_only :
    (∀ m : AGVSpec, completeness_score m
      = ((CORE_FIELDS.countP (fun f => isFilled (m.get f))) : Rat) / 6) ∧
    (∀ m : AGVSpec, 0 ≤ completeness_score m ∧ completeness_score m ≤ 1) ∧
    (∀ m1 m2 : AGVSpec, (∀ f ∈ CORE_FIELDS, m1.get f = m2.get f) →
      completeness_score m1 = completeness_score m2) :=
  ⟨fun _ => rfl,
   fun m => ⟨completeness_score_nonneg m, completeness_score_le_one m⟩,
   completeness_score_congr⟩

/-- C5 witness: two records agreeing on the six core fields but differing
on vendor, weight, tool trace and the side maps score the same. -/
theorem completeness_score_core_fields_only_witness :
    completeness_score
      { device_name := some (.str "AGV One"), length_mm := some (.num 1500),
        vendor := some (.str "A"), weight_kg := some (.num 77),
        tool_trace := ["key_value"],
        confidenceMap := [("length_mm", (0.55 : Rat))] }
    = completeness_score
      { device_name := some (.str "AGV One"), length_mm := some (.num 1500) } :=
  completeness_score_core_fields_only.2.2 _ _ (by decide)

/-- C6: merging an empty candidate list yields the entirely empty record:
every canonical field null, empty tool trace, empty side maps. -/
theorem merge_empty_candidates_all_null :
    (∀ f : CanonField, (merge_candidates []).get f = none) ∧
    (merge_candidates []).source_id = none ∧
    (merge_candidates []).tool_trace = [] ∧
    (merge_candidates []).evidenceMap = [] ∧
    (merge_candidates []).confidenceMap = [] := by
  refine ⟨fun f => ?_, rfl, rfl, rfl, rfl⟩
  cases f <;> rfl

/-! ## Merge fold lemmas -/

/-- The `(conf, val, ev)` offer one candidate makes for key `k`, reading its
non-null value from an explicit fields list. -/
def offerFrom (c : Candidate) (fs : List (String × Option Val)) (k : String) :
    Option BestE :=
  if canonicalNames.contains k then
    (flatVal fs k).map
      (fun v => ⟨(lookupKey c.confidence k).getD 0, v, lookupKey c.evidence k⟩)
  else none

theorem lookupKey_mergeField_ne (c : Candidate) (best : List (String × BestE))
    (f k : String) (v : Option Val) (h : f ≠ k) :
    lookupKey (mergeField c best f v) k = lookupKey best k := by
  unfold mergeField
  by_cases hc : canonicalNames.contains f
  · rw [if_pos hc]
    rcases v with _ | w
    · rfl
    · rcases hb : lookupKey best f with _ | e
      · exact lookupKey_setKey_ne _ _ _ _ h
      · by_cases hlt : e.conf < (lookupKey c.confidence f).getD 0
        · dsimp only
          rw [if_pos hlt]
          exact lookupKey_setKey_ne _ _ _ _ h
        · dsimp only
          rw [if_neg hlt]
  · rw [if_neg hc]

theorem nodupKeys_mergeField (c : Candidate) (best : List (String × BestE))
    (f : String) (v : Option Val) (h : nodupKeys best) :
    nodupKeys (mergeField c best f v) := by
  unfold mergeField
  by_cases hc : canonicalNames.contains f
  · rw [if_pos hc]
    rcases v with _ | w
    · exact h
    · rcases lookupKey best f with _ | e
      · exact nodupKeys_setKey _ _ _ h
      · by_cases hlt : e.conf < (lookupKey c.confidence f).getD 0
        · dsimp only
          rw [if_pos hlt]
          exact nodupKeys_setKey _ _ _ h
        · dsimp only
          rw [if_neg hlt]
          exact h
  · rw [if_neg hc]
    exact h

theorem flatVal_cons_ne (f0 k : String) (v0 : Option Val)
    (t : List (String × Option Val)) (h : f0 ≠ k) :
    flatVal ((f0, v0) :: t) k = flatVal t k := by
  unfold flatVal
  rw [show lookupKey ((f0, v0) :: t) k = lookupKey t k by
    simp [lookupKey, h]]

theorem flatVal_cons_self (k : String) (v0 : Option Val)
    (t : List (String × Option Val)) :
    flatVal ((k, v0) :: t) k = v0.elim none some := by
  unfold flatVal
  rw [show lookupKey ((k, v0) :: t) k = some v0 by simp [lookupKey]]
  rcases v0 with _ | w <;> rfl

/-- Folding a fields list with no entry for `k` never changes the best
entry at `k`. -/
theorem fieldsFold_lookup_not_mem (c : Candidate) (k : String) :
    ∀ (fs : List (String × Option Val)) (best : List (String × BestE)),
      k ∉ keysOf fs →
      lookupKey (fs.foldl (fun b p => mergeField c b p.1 p.2) best) k
        = lookupKey best k := by
  intro fs
  induction fs with
  | nil => intro best _; rfl
  | cons p t ih =>
    intro best h
    rcases p with ⟨f0, v0⟩
    simp only [keysOf, List.map_cons, List.mem_cons] at h
    push_neg at h
    simp only [List.foldl_cons]
    rw [ih _ (by simpa [keysOf] using h.2),
      lookupKey_mergeField_ne _ _ _ _ _ (Ne.symm h.1)]

/-- The per-candidate fold over a fields list combines the best entry at `k`
with the candidate's offer read from that list. -/
theorem fieldsFold_lookup (c : Candidate) (k : String) :
    ∀ (fs : List (String × Option Val)) (best : List (String × BestE)),
      (keysOf fs).Nodup →
      lookupKey (fs.foldl (fun b p => mergeField c b p.1 p.2) best) k
        = combineE (lookupKey best k) (offerFrom c fs k) := by
  intro fs
  induction fs with
  | nil =>
    intro best _
    show lookupKey best k = combineE (lookupKey best k) (offerFrom c [] k)
    have : offerFrom c [] k = none := by
      unfold offerFrom flatVal
      rcases hc : canonicalNames.contains k <;> simp [lookupKey]
    rw [this]
    rcases lookupKey best k with _ | e <;> rfl
  | cons p t ih =>
    intro best hnd
    rcases p with ⟨f0, v0⟩
    simp only [keysOf, List.map_cons, List.nodup_cons] at hnd
    by_cases hf : f0 = k
    · subst hf
      simp only [List.foldl_cons]
      rw [fieldsFold_lookup_not_mem c f0 t _ (by simpa [keysOf] using hnd.1)]
      by_cases hc : canonicalNames.contains f0
      · rcases v0 with _ | w
        · have ho : offerFrom c ((f0, none) :: t) f0 = none := by
            unfold offerFrom
            rw [if_pos hc, flatVal_cons_self]
            rfl
          rw [ho]
          have : mergeField c best f0 none = best := by
            unfold mergeField
            rw [if_pos hc]
          rw [this]
          rcases lookupKey best f0 with _ | e <;> rfl
        · have ho : offerFrom c ((f0, some w) :: t) f0
              = some ⟨(lookupKey c.confidence f0).getD 0, w,
                  lookupKey c.evidence f0⟩ := by
            unfold offerFrom
            rw [if_pos hc, flatVal_cons_self]
            rfl
          rw [ho]
          unfold mergeField
          rw [if_pos hc]
          rcases hb : lookupKey best f0 with _ | e
          · rw [lookupKey_setKey_self]
            rfl
          · dsimp only
            by_cases hlt : e.conf < (lookupKey c.confidence f0).getD 0
            · rw [if_pos hlt, lookupKey_setKey_self]
              show _ = if e.conf < (lookupKey c.confidence f0).getD 0 then _ else _
              rw [if_pos hlt]
            · rw [if_neg hlt, hb]
              show _ = if e.conf < (lookupKey c.confidence f0).getD 0 then _ else _
              rw [if_neg hlt]
      · have ho : offerFrom c ((f0, v0) :: t) f0 = none := by
          unfold offerFrom
          rw [if_neg hc]
        rw [ho]
        have : mergeField c best f0 v0 = best := by
          unfold mergeField
          rw [if_neg hc]
        rw [this]
        rcases lookupKey best f0 with _ | e <;> rfl
    · simp only [List.foldl_cons]
      rw [ih _ hnd.2, lookupKey_mergeField_ne _ _ _ _ _ hf]
      have : offerFrom c ((f0, v0) :: t) k = offerFrom c t k := by
        unfold offerFrom
        rw [flatVal_cons_ne _ _ _ _ hf]
      rw [this]

theorem lookupKey_mergeCand (c : Candidate) (best : List (String × BestE))
    (k : String) (h : nodupKeys c.fields) :
    lookupKey (mergeCand best c) k
      = combineE (lookupKey best k) (offerFrom c c.fields k) :=
  fieldsFold_lookup c k c.fields best h

theorem nodupKeys_mergeCand (c : Candidate) (best : List (String × BestE))
    (h : nodupKeys best) : nodupKeys (mergeCand best c) := by
  unfold mergeCand
  induction c.fields generalizing best with
  | nil => exact h
  | cons p t ih =>
    simp only [List.foldl_cons]
    exact ih _ (nodupKeys_mergeField _ _ _ _ h)

theorem nodupKeys_bestMap (cands : List Candidate) :
    nodupKeys (bestMap cands) := by
  unfold bestMap
  have : ∀ (l : List Candidate) (b : List (String × BestE)), nodupKeys b →
      nodupKeys (l.foldl mergeCand b) := by
    intro l
    induction l with
    | nil => intro b hb; exact hb
    | cons c t ih =>
      intro b hb
      exact ih _ (nodupKeys_mergeCand _ _ hb)
  exact this cands [] (by simp [nodupKeys, keysOf])

/-- The whole best-map fold, per key, is the left fold of `combineE` over
the candidates' offers. -/
theorem bestFold_lookup (k : String) :
    ∀ (cands : List Candidate) (best : List (String × BestE)),
      (∀ c ∈ cands, nodupKeys c.fields) →
      lookupKey (cands.foldl mergeCand best) k
        = cands.foldl (fun e c => combineE e (offerFrom c c.fields k))
            (lookupKey best k) := by
  intro cands
  induction cands with
  | nil => intro best _; rfl
  | cons c t ih =>
    intro best hn
    simp only [List.foldl_cons]
    rw [ih _ (fun d hd => hn d (List.mem_cons_of_mem _ hd)),
      lookupKey_mergeCand _ _ _ (hn c (List.mem_cons_self _ _))]

/-! ## selectWinner: correspondence with the best map and basic facts -/

theorem offer_eq_entryOf (c : Candidate) (k : String)
    (hc : canonicalNames.contains k = true) :
    offerFrom c c.fields k = entryOf k c := by
  unfold offerFrom entryOf valOf flatVal propConf
  rw [if_pos hc]

theorem entryOf_eq_none (c : Candidate) (k : String)
    (hp : ¬proposesB c k = true) : entryOf k c = none := by
  unfold entryOf
  rcases hval : valOf c k with _ | v
  · rfl
  · exfalso
    apply hp
    unfold proposesB
    rw [hval]
    rfl

theorem entryOf_of_proposes (c : Candidate) (k : String)
    (hp : proposesB c k = true) :
    ∃ v, valOf c k = some v ∧
      entryOf k c = some ⟨propConf c k, v, lookupKey c.evidence k⟩ := by
  obtain ⟨v, hv⟩ := Option.isSome_iff_exists.mp hp
  refine ⟨v, hv, ?_⟩
  unfold entryOf
  rw [hv]
  rfl

/-- The per-key `combineE` fold over candidate offers computes the entry of
the selected winner. -/
theorem combineFold_eq_selectWinner (k : String) :
    ∀ (cands : List Candidate) (w0 : Option Candidate),
      (∀ c0, w0 = some c0 → proposesB c0 k = true) →
      cands.foldl (fun e c => combineE e (entryOf k c)) (w0.bind (entryOf k))
        = (cands.foldl (selStep k) w0).bind (entryOf k) := by
  intro cands
  induction cands with
  | nil => intro w0 _; rfl
  | cons c t ih =>
    intro w0 hinv
    simp only [List.foldl_cons]
    have hstep : combineE (w0.bind (entryOf k)) (entryOf k c)
        = (selStep k w0 c).bind (entryOf k) := by
      by_cases hp : proposesB c k = true
      · obtain ⟨v, hv, hec⟩ := entryOf_of_proposes c k hp
        rcases w0 with _ | c0
        · unfold selStep
          rw [if_pos hp]
          show combineE none (entryOf k c) = entryOf k c
          rw [hec]
          rfl
        · obtain ⟨v0, hv0, hec0⟩ := entryOf_of_proposes c0 k (hinv c0 rfl)
          unfold selStep
          rw [if_pos hp]
          show combineE (entryOf k c0) (entryOf k c)
            = (if propConf c0 k < propConf c k then some c else some c0).bind
                (entryOf k)
          rw [hec, hec0]
          by_cases hlt : propConf c0 k < propConf c k
          · rw [if_pos hlt]
            show (if propConf c0 k < propConf c k then _ else _)
              = (some c).bind (entryOf k)
            rw [if_pos hlt]
            show _ = entryOf k c
            rw [hec]
          · rw [if_neg hlt]
            show (if propConf c0 k < propConf c k then _ else _)
              = (some c0).bind (entryOf k)
            rw [if_neg hlt]
            show _ = entryOf k c0
            rw [hec0]
      · rw [entryOf_eq_none c k hp]
        unfold selStep
        rw [if_neg hp]
        rfl
    rw [hstep]
    apply ih
    intro c0 h0
    unfold selStep at h0
    by_cases hp : proposesB c k = true
    · rw [if_pos hp] at h0
      rcases w0 with _ | c1
      · cases h0; exact hp
      · dsimp only at h0
        by_cases hlt : propConf c1 k < propConf c k
        · rw [if_pos hlt] at h0; cases h0; exact hp
        · rw [if_neg hlt] at h0; cases h0; exact hinv c0 rfl
    · rw [if_neg hp] at h0
      exact hinv c0 h0

/-- The best map's entry for a canonical key is the selected winner's
offer. -/
theorem lookupKey_bestMap_eq (cands : List Candidate) (k : String)
    (hc : canonicalNames.contains k = true)
    (hn : ∀ c ∈ cands, nodupKeys c.fields) :
    lookupKey (bestMap cands) k = (selectWinner cands k).bind (entryOf k) := by
  unfold bestMap selectWinner
  rw [bestFold_lookup k cands [] hn]
  have hfun : (fun (e : Option BestE) (c : Candidate) =>
      combineE e (offerFrom c c.fields k)) = fun e c => combineE e (entryOf k c) := by
    funext e c
    rw [offer_eq_entryOf c k hc]
  rw [hfun]
  exact combineFold_eq_selectWinner k cands none (by intro c0 h0; cases h0)

theorem selStep_inv (k : String) (w0 : Option Candidate) (c : Candidate)
    (hinv : ∀ c0, w0 = some c0 → proposesB c0 k = true) :
    ∀ c0, selStep k w0 c = some c0 → proposesB c0 k = true := by
  intro c0 h0
  unfold selStep at h0
  by_cases hp : proposesB c k = true
  · rw [if_pos hp] at h0
    rcases w0 with _ | c1
    · cases h0; exact hp
    · dsimp only at h0
      by_cases hlt : propConf c1 k < propConf c k
      · rw [if_pos hlt] at h0; cases h0; exact hp
      · rw [if_neg hlt] at h0; cases h0; exact hinv c0 rfl
  · rw [if_neg hp] at h0
    exact hinv c0 h0

/-- A selected winner always proposes the key. -/
theorem selectWinner_proposes (cands : List Candidate) (k : String)
    (w : Candidate) (h : selectWinner cands k = some w) :
    proposesB w k = true := by
  have main : ∀ (l : List Candidate) (w0 : Option Candidate),
      (∀ c0, w0 = some c0 → proposesB c0 k = true) →
      ∀ w, l.foldl (selStep k) w0 = some w → proposesB w k = true := by
    intro l
    induction l with
    | nil => intro w0 hinv w hw; exact hinv w hw
    | cons c t ih =>
      intro w0 hinv w hw
      exact ih _ (selStep_inv k w0 c hinv) w hw
  exact main cands none (by intro c0 h0; cases h0) w h

/-- A selected winner is one of the candidates. -/
theorem selectWinner_mem (cands : List Candidate) (k : String)
    (w : Candidate) (h : selectWinner cands k = some w) : w ∈ cands := by
  have main : ∀ (l : List Candidate) (w0 : Option Candidate) (w : Candidate),
      l.foldl (selStep k) w0 = some w → w0 = some w ∨ w ∈ l := by
    intro l
    induction l with
    | nil => intro w0 w hw; exact Or.inl hw
    | cons c t ih =>
      intro w0 w hw
      rcases ih (selStep k w0 c) w hw with hs | hm
      · unfold selStep at hs
        by_cases hp : proposesB c k = true
        · rw [if_pos hp] at hs
          rcases w0 with _ | c0
          · cases hs
            exact Or.inr (List.mem_cons_self _ _)
          · dsimp only at hs
            by_cases hlt : propConf c0 k < propConf c k
            · rw [if_pos hlt] at hs; cases hs
              exact Or.inr (List.mem_cons_self _ _)
            · rw [if_neg hlt] at hs; cases hs
              exact Or.inl rfl
        · rw [if_neg hp] at hs
          exact Or.inl hs
      · exact Or.inr (List.mem_cons_of_mem _ hm)
  rcases main cands none w h with h0 | hm
  · cases h0
  · exact hm

theorem selFold_isSome (k : String) :
    ∀ (l : List Candidate) (w0 : Option Candidate),
      (w0.isSome = true ∨ ∃ c ∈ l, proposesB c k = true) →
      (l.foldl (selStep k) w0).isSome = true := by
  intro l
  induction l with
  | nil =>
    intro w0 h
    rcases h with h | ⟨c, hc, _⟩
    · exact h
    · simp at hc
  | cons c t ih =>
    intro w0 h
    simp only [List.foldl_cons]
    apply ih
    rcases h with h | ⟨d, hd, hp⟩
    · left
      unfold selStep
      rcases w0 with _ | c0
      · simp at h
      · by_cases hp : proposesB c k = true
        · rw [if_pos hp]
          dsimp only
          by_cases hlt : propConf c0 k < propConf c k
          · rw [if_pos hlt]; rfl
          · rw [if_neg hlt]; rfl
        · rw [if_neg hp]; rfl
    · rcases List.mem_cons.mp hd with rfl | hdt
      · left
        unfold selStep
        rw [if_pos hp]
        rcases w0 with _ | c0
        · rfl
        · dsimp only
          by_cases hlt : propConf c0 k < propConf d k
          · rw [if_pos hlt]; rfl
          · rw [if_neg hlt]; rfl
      · right
        exact ⟨d, hdt, hp⟩

/-- No winner iff no candidate proposes the key. -/
theorem selectWinner_none_iff (cands : List Candidate) (k : String) :
    selectWinner cands k = none ↔ ∀ c ∈ cands, proposesB c k = false := by
  constructor
  · intro h c hc
    by_contra hne
    have hp : proposesB c k = true := by
      revert hne
      cases proposesB c k <;> simp
    have hs := selFold_isSome k cands none (Or.inr ⟨c, hc, hp⟩)
    unfold selectWinner at h
    rw [h] at hs
    cases hs
  · intro h
    unfold selectWinner
    induction cands with
    | nil => rfl
    | cons c t ih =>
      simp only [List.foldl_cons]
      have hc : proposesB c k = false := h c (List.mem_cons_self _ _)
      have : selStep k none c = none := by
        unfold selStep
        rw [if_neg (by rw [hc]; exact Bool.false_ne_true)]
      rw [this]
      exact ih (fun d hd => h d (List.mem_cons_of_mem _ hd))

/-! ## The merged record's fields from the best map -/

theorem fieldOfName_name (f : CanonField) : fieldOfName f.name = some f := by
  cases f <;> rfl

theorem fieldOfName_eq_some (k : String) (f : CanonField)
    (h : fieldOfName k = some f) : k = f.name := by
  unfold fieldOfName at h
  split_ifs at h with h1 h2 h3 h4 h5 h6 h7 h8 h9 h10 <;> (cases h <;> assumption)

theorem canonical_contains_name (f : CanonField) :
    canonicalNames.contains f.name = true := by
  cases f <;> decide

theorem get_setV_self (m : AGVSpec) (f : CanonField) (v : Option Val) :
    (m.setV f v).get f = v := by
  cases f <;> rfl

theorem get_setV_ne (m : AGVSpec) (f g : CanonField) (v : Option Val)
    (h : f ≠ g) : (m.setV f v).get g = m.get g := by
  cases f <;> cases g <;> first | rfl | exact absurd rfl h

theorem get_update_evMap (m : AGVSpec) (x : List (String × Evidence))
    (f : CanonField) : AGVSpec.get { m with evidenceMap := x } f = m.get f := by
  cases f <;> rfl

theorem get_update_confMap (m : AGVSpec) (x : List (String × Rat))
    (f : CanonField) : AGVSpec.get { m with confidenceMap := x } f = m.get f := by
  cases f <;> rfl

theorem get_update_idtrace (m : AGVSpec) (sid : Option String)
    (tt : List String) (f : CanonField) :
    AGVSpec.get { m with source_id := sid, tool_trace := tt } f = m.get f := by
  cases f <;> rfl

theorem confMap_setV (m : AGVSpec) (f : CanonField) (v : Option Val) :
    (m.setV f v).confidenceMap = m.confidenceMap := by
  cases f <;> rfl

theorem evMap_setV (m : AGVSpec) (f : CanonField) (v : Option Val) :
    (m.setV f v).evidenceMap = m.evidenceMap := by
  cases f <;> rfl

theorem applyOne_get_self (m : AGVSpec) (e : BestE) (f : CanonField) :
    (applyOne m f.name e).get f = some e.val := by
  unfold applyOne
  rw [fieldOfName_name]
  rcases e.ev with _ | ev
  · rw [get_update_confMap, get_setV_self]
  · rw [get_update_confMap, get_update_evMap, get_setV_self]

theorem applyOne_get_ne (m : AGVSpec) (k : String) (e : BestE) (f : CanonField)
    (h : k ≠ f.name) : (applyOne m k e).get f = m.get f := by
  unfold applyOne
  rcases hfn : fieldOfName k with _ | cf
  · rcases e.ev with _ | ev
    · rw [get_update_confMap]
    · rw [get_update_confMap, get_update_evMap]
  · have hne : cf ≠ f := by
      intro heq
      subst heq
      exact h (fieldOfName_eq_some k cf hfn)
    rcases e.ev with _ | ev
    · rw [get_update_confMap, get_setV_ne _ _ _ _ hne]
    · rw [get_update_confMap, get_update_evMap, get_setV_ne _ _ _ _ hne]

theorem applyOne_confMap (m : AGVSpec) (k : String) (e : BestE) :
    (applyOne m k e).confidenceMap = setKey m.confidenceMap k e.conf := by
  unfold applyOne
  rcases fieldOfName k with _ | cf <;> rcases e.ev with _ | ev <;>
    simp [confMap_setV]

theorem applyOne_evMap (m : AGVSpec) (k : String) (e : BestE) :
    (applyOne m k e).evidenceMap
      = (match e.ev with
        | some ev => setKey m.evidenceMap k ev
        | none => m.evidenceMap) := by
  unfold applyOne
  rcases fieldOfName k with _ | cf <;> rcases e.ev with _ | ev <;>
    simp [evMap_setV]

theorem applyBest_get_not_mem (f : CanonField) :
    ∀ (best : List (String × BestE)) (m : AGVSpec), f.name ∉ keysOf best →
      (applyBest m best).get f = m.get f := by
  intro best
  induction best with
  | nil => intro m _; rfl
  | cons p t ih =>
    intro m h
    rcases p with ⟨s, e⟩
    simp only [keysOf, List.map_cons, List.mem_cons] at h
    push_neg at h
    show (applyBest (applyOne m s e) t).get f = m.get f
    rw [ih _ (by simpa [keysOf] using h.2),
      applyOne_get_ne _ _ _ _ (Ne.symm h.1)]

theorem applyBest_get (f : CanonField) :
    ∀ (best : List (String × BestE)) (m : AGVSpec), nodupKeys best →
      (applyBest m best).get f
        = (match lookupKey best f.name with
          | some e => some e.val
          | none => m.get f) := by
  intro best
  induction best with
  | nil => intro m _; rfl
  | cons p t ih =>
    intro m hnd
    rcases p with ⟨s, e⟩
    have hnd' : nodupKeys t := by
      unfold nodupKeys at hnd ⊢
      simp only [keysOf, List.map_cons, List.nodup_cons] at hnd
      exact hnd.2
    by_cases hs : s = f.name
    · subst hs
      have hnm : CanonField.name f ∉ keysOf t := by
        unfold nodupKeys at hnd
        simp only [keysOf, List.map_cons, List.nodup_cons] at hnd
        exact fun hm => hnd.1 (by simpa [keysOf] using hm)
      show (applyBest (applyOne m f.name e) t).get f = _
      rw [applyBest_get_not_mem f t _ hnm, applyOne_get_self]
      simp [lookupKey]
    · show (applyBest (applyOne m s e) t).get f = _
      rw [ih _ hnd']
      rw [show lookupKey ((s, e) :: t) f.name = lookupKey t f.name by
        simp [lookupKey, hs]]
      rcases lookupKey t f.name with _ | e2
      · exact applyOne_get_ne _ _ _ _ hs
      · rfl

theorem applyBest_confMap (k : String) :
    ∀ (best : List (String × BestE)) (m : AGVSpec), nodupKeys best →
      lookupKey (applyBest m best).confidenceMap k
        = (match lookupKey best k with
          | some e => some e.conf
          | none => lookupKey m.confidenceMap k) := by
  intro best
  induction best with
  | nil => intro m _; rfl
  | cons p t ih =>
    intro m hnd
    rcases p with ⟨s, e⟩
    have hnd' : nodupKeys t := by
      unfold nodupKeys at hnd ⊢
      simp only [keysOf, List.map_cons, List.nodup_cons] at hnd
      exact hnd.2
    show lookupKey (applyBest (applyOne m s e) t).confidenceMap k = _
    rw [ih _ hnd']
    by_cases hs : s = k
    · subst hs
      have hnm : s ∉ keysOf t := by
        unfold nodupKeys at hnd
        simp only [keysOf, List.map_cons, List.nodup_cons] at hnd
        exact fun hm => hnd.1 (by simpa [keysOf] using hm)
      rw [lookupKey_eq_none_of_not_mem t s hnm]
      rw [show lookupKey ((s, e) :: t) s = some e by simp [lookupKey]]
      rw [applyOne_confMap, lookupKey_setKey_self]
    · rw [show lookupKey ((s, e) :: t) k = lookupKey t k by
        simp [lookupKey, hs]]
      rcases lookupKey t k with _ | e2
      · rw [applyOne_confMap, lookupKey_setKey_ne _ _ _ _ hs]
      · rfl

theorem applyBest_evMap_not_mem (k : String) :
    ∀ (best : List (String × BestE)) (m : AGVSpec), k ∉ keysOf best →
      lookupKey (applyBest m best).evidenceMap k
        = lookupKey m.evidenceMap k := by
  intro best
  induction best with
  | nil => intro m _; rfl
  | cons p t ih =>
    intro m h
    rcases p with ⟨s, e⟩
    simp only [keysOf, List.map_cons, List.mem_cons] at h
    push_neg at h
    show lookupKey (applyBest (applyOne m s e) t).evidenceMap k = _
    rw [ih _ (by simpa [keysOf] using h.2), applyOne_evMap]
    rcases he : e.ev with _ | ev
    · rfl
    · exact lookupKey_setKey_ne _ _ _ _ (Ne.symm h.1)

theorem applyBest_evMap (k : String) :
    ∀ (best : List (String × BestE)) (m : AGVSpec), nodupKeys best →
      lookupKey m.evidenceMap k = none →
      lookupKey (applyBest m best).evidenceMap k
        = (lookupKey best k).bind (fun e => e.ev) := by
  intro best
  induction best with
  | nil => intro m _ hm; exact hm
  | cons p t ih =>
    intro m hnd hm
    rcases p with ⟨s, e⟩
    have hnd' : nodupKeys t := by
      unfold nodupKeys at hnd ⊢
      simp only [keysOf, List.map_cons, List.nodup_cons] at hnd
      exact hnd.2
    show lookupKey (applyBest (applyOne m s e) t).evidenceMap k = _
    by_cases hs : s = k
    · subst hs
      have hnm : s ∉ keysOf t := by
        unfold nodupKeys at hnd
        simp only [keysOf, List.map_cons, List.nodup_cons] at hnd
        exact fun hmem => hnd.1 (by simpa [keysOf] using hmem)
      rw [applyBest_evMap_not_mem s t _ hnm, applyOne_evMap]
      rw [show lookupKey ((s, e) :: t) s = some e by simp [lookupKey]]
      rcases he : e.ev with _ | ev
      · simp [hm, he]
      · simp [lookupKey_setKey_self, he]
    · have hm2 : lookupKey (applyOne m s e).evidenceMap k = none := by
        rw [applyOne_evMap]
        rcases he : e.ev with _ | ev
        · exact hm
        · rw [lookupKey_setKey_ne _ _ _ _ hs]
          exact hm
      rw [ih _ hnd' hm2]
      rw [show lookupKey ((s, e) :: t) k = lookupKey t k by
        simp [lookupKey, hs]]

/-! ## The merged record, characterized by selectWinner -/

theorem merge_cons_eq (c0 : Candidate) (rest : List Candidate) :
    merge_candidates (c0 :: rest)
      = { applyBest {} (bestMap (c0 :: rest)) with
          source_id := some (((c0 :: rest).getLast (by simp)).source_id)
          tool_trace := (c0 :: rest).map (·.tool) } := rfl

/-- The stored value per canonical field is the selected winner's value. -/
theorem merge_get (cands : List Candidate) (f : CanonField)
    (hn : ∀ c ∈ cands, nodupKeys c.fields) :
    (merge_candidates cands).get f
      = (selectWinner cands f.name).bind (fun c => valOf c f.name) := by
  rcases cands with _ | ⟨c0, rest⟩
  · have h1 : (merge_candidates []).get f = none := by cases f <;> rfl
    rw [h1]
    rfl
  · rw [merge_cons_eq, get_update_idtrace,
      applyBest_get f _ _ (nodupKeys_bestMap _),
      lookupKey_bestMap_eq _ _ (canonical_contains_name f) hn]
    have hbase : AGVSpec.get ({} : AGVSpec) f = none := by cases f <;> rfl
    rcases hw : selectWinner (c0 :: rest) f.name with _ | w
    · simp [hbase]
    · rcases hv : valOf w f.name with _ | v
      · have he : entryOf f.name w = none := by
          unfold entryOf
          rw [hv]
          rfl
        simp [he, hbase, hv]
      · have he : entryOf f.name w
            = some ⟨propConf w f.name, v, lookupKey w.evidence f.name⟩ := by
          unfold entryOf
          rw [hv]
          rfl
        simp [he, hv]

/-- The recorded confidence per canonical field is the winner's proposal
confidence. -/
theorem merge_conf (cands : List Candidate) (f : CanonField)
    (hn : ∀ c ∈ cands, nodupKeys c.fields) :
    lookupKey (merge_candidates cands).confidenceMap f.name
      = (selectWinner cands f.name).map (fun c => propConf c f.name) := by
  rcases cands with _ | ⟨c0, rest⟩
  · rfl
  · have hcm : (merge_candidates (c0 :: rest)).confidenceMap
        = (applyBest {} (bestMap (c0 :: rest))).confidenceMap := by
      rw [merge_cons_eq]
    rw [hcm, applyBest_confMap _ _ _ (nodupKeys_bestMap _),
      lookupKey_bestMap_eq _ _ (canonical_contains_name f) hn]
    rcases hw : selectWinner (c0 :: rest) f.name with _ | w
    · rfl
    · have hp := selectWinner_proposes _ _ _ hw
      obtain ⟨v, hv, he⟩ := entryOf_of_proposes w f.name hp
      simp [he]

/-- The recorded evidence per canonical field is the winner's evidence
entry. -/
theorem merge_evidence (cands : List Candidate) (f : CanonField)
    (hn : ∀ c ∈ cands, nodupKeys c.fields) :
    lookupKey (merge_candidates cands).evidenceMap f.name
      = (selectWinner cands f.name).bind (fun c => lookupKey c.evidence f.name) := by
  rcases cands with _ | ⟨c0, rest⟩
  · rfl
  · have hem : (merge_candidates (c0 :: rest)).evidenceMap
        = (applyBest {} (bestMap (c0 :: rest))).evidenceMap := by
      rw [merge_cons_eq]
    rw [hem, applyBest_evMap _ _ ({} : AGVSpec) (nodupKeys_bestMap _)
        (show lookupKey ([] : List (String × Evidence)) f.name = none from rfl),
      lookupKey_bestMap_eq _ _ (canonical_contains_name f) hn]
    rcases hw : selectWinner (c0 :: rest) f.name with _ | w
    · rfl
    · have hp := selectWinner_proposes _ _ _ hw
      obtain ⟨v, hv, he⟩ := entryOf_of_proposes w f.name hp
      simp [he]

/-- A canonical field is populated iff some candidate supplied a non-null
value for exactly that name. -/
theorem merge_populated_iff (cands : List Candidate) (f : CanonField)
    (hn : ∀ c ∈ cands, nodupKeys c.fields) :
    (merge_candidates cands).get f ≠ none
      ↔ ∃ c ∈ cands, proposesB c f.name = true := by
  rw [merge_get cands f hn]
  constructor
  · intro hne
    rcases hw : selectWinner cands f.name with _ | w
    · rw [hw] at hne
      simp at hne
    · exact ⟨w, selectWinner_mem _ _ _ hw, selectWinner_proposes _ _ _ hw⟩
  · rintro ⟨c, hc, hp⟩
    have hs := selFold_isSome f.name cands none (Or.inr ⟨c, hc, hp⟩)
    obtain ⟨w, hw⟩ := Option.isSome_iff_exists.mp hs
    have hw' : selectWinner cands f.name = some w := hw
    rw [hw']
    have hp' := selectWinner_proposes _ _ _ hw'
    obtain ⟨v, hv, _⟩ := entryOf_of_proposes w f.name hp'
    simp [hv]

/-- The winner is the earliest candidate attaining the maximum confidence:
it proposes the key, every proposer is bounded by its confidence, and every
earlier proposer is strictly below it. -/
theorem selectWinner_spec (cands : List Candidate) (k : String) :
    ∀ w, selectWinner cands k = some w →
      ∃ l1 l2, cands = l1 ++ w :: l2 ∧ proposesB w k = true ∧
        (∀ c ∈ cands, proposesB c k = true → propConf c k ≤ propConf w k) ∧
        (∀ c ∈ l1, proposesB c k = true → propConf c k < propConf w k) := by
  induction cands using List.reverseRecOn with
  | nil =>
    intro w h
    cases h
  | append_singleton l c ihl =>
    intro w h
    unfold selectWinner at h ihl
    rw [List.foldl_append, List.foldl_cons, List.foldl_nil] at h
    rcases hw0 : List.foldl (selStep k) none l with _ | w0
    · rw [hw0] at h
      unfold selStep at h
      by_cases hp : proposesB c k = true
      · rw [if_pos hp] at h
        cases h
        refine ⟨l, [], rfl, hp, ?_, ?_⟩
        · intro d hd hpd
          rcases List.mem_append.mp hd with hdl | hdc
          · exact absurd hpd
              (by rw [(selectWinner_none_iff l k).mp hw0 d hdl]; simp)
          · have hdc2 : d = c := by simpa using hdc
            subst hdc2
            exact le_refl _
        · intro d hd hpd
          exact absurd hpd
            (by rw [(selectWinner_none_iff l k).mp hw0 d hd]; simp)
      · rw [if_neg hp] at h
        cases h
    · rw [hw0] at h
      obtain ⟨l1, l2, hsplit, hpw0, hmax0, hlt0⟩ := ihl w0 hw0
      unfold selStep at h
      by_cases hp : proposesB c k = true
      · rw [if_pos hp] at h
        dsimp only at h
        by_cases hlt : propConf w0 k < propConf c k
        · rw [if_pos hlt] at h
          cases h
          refine ⟨l, [], rfl, hp, ?_, ?_⟩
          · intro d hd hpd
            rcases List.mem_append.mp hd with hdl | hdc
            · exact le_of_lt (lt_of_le_of_lt (hmax0 d hdl hpd) hlt)
            · have hdc2 : d = c := by simpa using hdc
              subst hdc2
              exact le_refl _
          · intro d hd hpd
            exact lt_of_le_of_lt (hmax0 d hd hpd) hlt
        · rw [if_neg hlt] at h
          cases h
          refine ⟨l1, l2 ++ [c], by rw [hsplit]; simp, hpw0, ?_, hlt0⟩
          intro d hd hpd
          rcases List.mem_append.mp hd with hdl | hdc
          · exact hmax0 d hdl hpd
          · have hdc2 : d = c := by simpa using hdc
            subst hdc2
            exact le_of_not_lt hlt
      · rw [if_neg hp] at h
        cases h
        refine ⟨l1, l2 ++ [c], by rw [hsplit]; simp, hpw0, ?_, hlt0⟩
        intro d hd hpd
        rcases List.mem_append.mp hd with hdl | hdc
        · exact hmax0 d hdl hpd
        · have hdc2 : d = c := by simpa using hdc
          subst hdc2
          exact absurd hpd hp

/-- The winner heads the sublist of proposers sharing its confidence. -/
theorem winner_head_filter (l : List Candidate) (k : String) (w : Candidate)
    (h : selectWinner l k = some w) :
    (l.filter (fun c => proposesB c k && (propConf c k == propConf w k))).head?
      = some w := by
  obtain ⟨l1, l2, hsplit, hpw, hmax, hlt⟩ := selectWinner_spec l k w h
  rw [hsplit, List.filter_append]
  have hf1 : l1.filter
      (fun c => proposesB c k && (propConf c k == propConf w k)) = [] := by
    rw [List.filter_eq_nil]
    intro a ha
    by_cases hpa : proposesB a k = true
    · have hne : propConf a k ≠ propConf w k := ne_of_lt (hlt a ha hpa)
      simp [hpa, hne]
    · simp [hpa]
  rw [hf1, List.nil_append, List.filter_cons]
  rw [if_pos (by simp [hpw])]
  rfl

/-- Permuting candidates while keeping every equal-confidence proposer
sublist in the same relative order leaves the selected winner unchanged. -/
theorem selectWinner_filter_invariant (k : String) (l1 l2 : List Candidate)
    (hperm : l1.Perm l2)
    (hfilter : ∀ q : Rat,
      l1.filter (fun c => proposesB c k && (propConf c k == q))
        = l2.filter (fun c => proposesB c k && (propConf c k == q))) :
    selectWinner l1 k = selectWinner l2 k := by
  have hmem : ∀ c, proposesB c k = true → (c ∈ l1 ↔ c ∈ l2) := by
    intro c hp
    constructor
    · intro hc
      have hmf : c ∈ l2.filter
          (fun d => proposesB d k && (propConf d k == propConf c k)) := by
        rw [← hfilter]
        exact List.mem_filter.mpr ⟨hc, by simp [hp]⟩
      exact (List.mem_filter.mp hmf).1
    · intro hc
      have hmf : c ∈ l1.filter
          (fun d => proposesB d k && (propConf d k == propConf c k)) := by
        rw [hfilter]
        exact List.mem_filter.mpr ⟨hc, by simp [hp]⟩
      exact (List.mem_filter.mp hmf).1
  rcases h1 : selectWinner l1 k with _ | w
  · rcases h2 : selectWinner l2 k with _ | w2
    · rfl
    · exfalso
      have hw2mem := selectWinner_mem _ _ _ h2
      have hw2p := selectWinner_proposes _ _ _ h2
      have hcontra := (selectWinner_none_iff l1 k).mp h1 w2
        ((hmem w2 hw2p).mpr hw2mem)
      rw [hw2p] at hcontra
      cases hcontra
  · have hwp := selectWinner_proposes _ _ _ h1
    have hwmem := selectWinner_mem _ _ _ h1
    have hw_in2 : w ∈ l2 := (hmem w hwp).mp hwmem
    have hs2 := selFold_isSome k l2 none (Or.inr ⟨w, hw_in2, hwp⟩)
    obtain ⟨w2, h2⟩ := Option.isSome_iff_exists.mp hs2
    have h2' : selectWinner l2 k = some w2 := h2
    rw [h2']
    obtain ⟨a1, b1, hsplit1, hpw1, hmax1, hlt1⟩ := selectWinner_spec l1 k w h1
    obtain ⟨a2, b2, hsplit2, hpw2, hmax2, hlt2⟩ := selectWinner_spec l2 k w2 h2'
    have hw2p := selectWinner_proposes _ _ _ h2'
    have hw2mem := selectWinner_mem _ _ _ h2'
    have hle1 : propConf w2 k ≤ propConf w k :=
      hmax1 w2 ((hmem w2 hw2p).mpr hw2mem) hw2p
    have hle2 : propConf w k ≤ propConf w2 k := hmax2 w hw_in2 hwp
    have hconf : propConf w2 k = propConf w k := le_antisymm hle1 hle2
    have hhead1 := winner_head_filter l1 k w h1
    have hhead2 := winner_head_filter l2 k w2 h2'
    rw [hconf, ← hfilter (propConf w k), hhead1] at hhead2
    cases hhead2
    rfl

/-! ## Claim theorems on the merge -/

/-- C1: per canonical field, the merge populates the field iff some
candidate supplies a non-null value under that exact name; the stored
value, confidence and evidence come from `selectWinner` — the earliest
candidate attaining the maximum proposal confidence under strict
greater-than replacement — and the winner is unchanged by permutations
that preserve the relative order of equal-confidence proposers. -/
theorem merge_picks_earliest_max_confidence (f : CanonField) :
    (∀ cands : List Candidate, (∀ c ∈ cands, nodupKeys c.fields) →
      (((merge_candidates cands).get f ≠ none)
          ↔ ∃ c ∈ cands, proposesB c f.name = true) ∧
      (merge_candidates cands).get f
        = (selectWinner cands f.name).bind (fun c => valOf c f.name) ∧
      lookupKey (merge_candidates cands).confidenceMap f.name
        = (selectWinner cands f.name).map (fun c => propConf c f.name) ∧
      lookupKey (merge_candidates cands).evidenceMap f.name
        = (selectWinner cands f.name).bind
            (fun c => lookupKey c.evidence f.name)) ∧
    (∀ (cands : List Candidate) (w : Candidate),
      selectWinner cands f.name = some w →
      ∃ l1 l2, cands = l1 ++ w :: l2 ∧ proposesB w f.name = true ∧
        (∀ c ∈ cands, proposesB c f.name = true →
          propConf c f.name ≤ propConf w f.name) ∧
        (∀ c ∈ l1, proposesB c f.name = true →
          propConf c f.name < propConf w f.name)) ∧
    (∀ l1 l2 : List Candidate, l1.Perm l2 →
      (∀ q : Rat,
        l1.filter (fun c => proposesB c f.name && (propConf c f.name == q))
          = l2.filter (fun c => proposesB c f.name && (propConf c f.name == q))) →
      selectWinner l1 f.name = selectWinner l2 f.name) :=
  ⟨fun cands hn =>
    ⟨merge_populated_iff cands f hn, merge_get cands f hn,
     merge_conf cands f hn, merge_evidence cands f hn⟩,
   fun cands w h => selectWinner_spec cands f.name w h,
   fun l1 l2 hp hf => selectWinner_filter_invariant f.name l1 l2 hp hf⟩

/-- C1 witness: with two candidates proposing `payload_kg` at confidences
0.65 and 0.325, the merge keeps the first one's value 250. -/
theorem merge_picks_earliest_max_confidence_witness :
    (merge_candidates
      [⟨"d", "t1", [("payload_kg", some (.num 250))],
        [("payload_kg", mkRat 13 20)], []⟩,
       ⟨"d", "t2", [("payload_kg", some (.num 9999999))],
        [("payload_kg", mkRat 13 40)], []⟩]).get CanonField.payload_kg
      = some (.num 250) := by
  have h := (merge_picks_earliest_max_confidence CanonField.payload_kg).1
    [⟨"d", "t1", [("payload_kg", some (.num 250))],
      [("payload_kg", mkRat 13 20)], []⟩,
     ⟨"d", "t2", [("payload_kg", some (.num 9999999))],
      [("payload_kg", mkRat 13 40)], []⟩] (by decide)
  rw [h.2.1]
  decide

/-- C7: the validator is a pure confidence adjustment: fields, evidence and
identity are untouched, confidence keys are preserved and each entry is
either kept or halved (never raised for nonnegative confidences), and a
lone out-of-range candidate still merges its value. -/
theorem validate_pure_confidence_adjustment (c : Candidate) :
    (validate_candidate c).fields = c.fields ∧
    (validate_candidate c).evidence = c.evidence ∧
    (validate_candidate c).source_id = c.source_id ∧
    (validate_candidate c).tool = c.tool ∧
    keysOf (validate_candidate c).confidence = keysOf c.confidence ∧
    (∀ k : String, lookupKey (validate_candidate c).confidence k
      = (lookupKey c.confidence k).map (· * penaltyFactor c k)) ∧
    (∀ (k : String) (q q' : Rat), lookupKey c.confidence k = some q →
      lookupKey (validate_candidate c).confidence k = some q' →
      (q' = q ∨ q' = q * (1 / 2)) ∧ (0 ≤ q → q' ≤ q)) ∧
    (∀ f : CanonField, nodupKeys c.fields →
      (merge_candidates [validate_candidate c]).get f = valOf c f.name) := by
  refine ⟨rfl, rfl, rfl, rfl, validate_keys c, validate_confidence_lookup c,
    ?_, ?_⟩
  · intro k q q' hq hq'
    rw [validate_confidence_lookup c k, hq] at hq'
    have hq2 : q' = q * penaltyFactor c k := by
      have h2 : some (q * penaltyFactor c k) = some q' := hq'
      exact (Option.some.inj h2).symm
    have hfac : penaltyFactor c k = 1 / 2 ∨ penaltyFactor c k = 1 := by
      unfold penaltyFactor
      by_cases hcond : (k = "payload_kg" ∧ badPayload c)
          ∨ (k = "length_mm" ∧ badDim c "length_mm")
          ∨ (k = "width_mm" ∧ badDim c "width_mm")
          ∨ (k = "height_mm" ∧ badDim c "height_mm")
      · rw [if_pos hcond]; exact Or.inl rfl
      · rw [if_neg hcond]; exact Or.inr rfl
    rcases hfac with hfac | hfac <;> rw [hfac] at hq2
    · refine ⟨Or.inr hq2, fun hq0 => ?_⟩
      rw [hq2]
      nlinarith
    · refine ⟨Or.inl (by rw [hq2, mul_one]), fun hq0 => ?_⟩
      rw [hq2, mul_one]
  · intro f hn
    have hnl : ∀ d ∈ [validate_candidate c], nodupKeys d.fields := by
      intro d hd
      have : d = validate_candidate c := by simpa using hd
      subst this
      exact hn
    rw [merge_get [validate_candidate c] f hnl]
    have hsel : selectWinner [validate_candidate c] f.name
        = if proposesB (validate_candidate c) f.name = true
          then some (validate_candidate c) else none := rfl
    by_cases hp : proposesB (validate_candidate c) f.name = true
    · rw [hsel, if_pos hp]
      rfl
    · rw [hsel, if_neg hp]
      have hval : valOf c f.name = none := by
        rcases hv : valOf c f.name with _ | v
        · rfl
        · exfalso
          apply hp
          unfold proposesB
          rw [show valOf (validate_candidate c) f.name = valOf c f.name from rfl,
            hv]
          rfl
      rw [hval]
      rfl

/-- C7 witness: a candidate whose payload 9999999 is out of range keeps its
value through validation and a single-candidate merge. -/
theorem validate_pure_confidence_adjustment_witness :
    (merge_candidates
      [validate_candidate
        ⟨"d", "t", [("payload_kg", some (.num 9999999))],
          [("payload_kg", mkRat 13 20)], []⟩]).get CanonField.payload_kg
      = some (.num 9999999) := by
  have h := (validate_pure_confidence_adjustment
    ⟨"d", "t", [("payload_kg", some (.num 9999999))],
      [("payload_kg", mkRat 13 20)], []⟩).2.2.2.2.2.2.2
    CanonField.payload_kg (by decide)
  rw [h]
  decide

/-- Any canonical field name looks up no confidence in a raw key-value
candidate (its only confidence entry sits under the reserved `_kv` key),
before and after normalization and validation. -/
theorem kv_propConf_zero (kv : List (String × String)) (sid tool : String)
    (f : CanonField) :
    propConf (normalize_candidate (from_key_values kv sid tool)) f.name = 0 ∧
    propConf (procCand (from_key_values kv sid tool)) f.name = 0 := by
  have hname : lookupKey [("_kv", (0.55 : Rat))] f.name = none := by
    cases f <;> decide
  constructor
  · show (lookupKey [("_kv", (0.55 : Rat))] f.name).getD 0 = 0
    rw [hname]
    rfl
  · show (lookupKey (validate_candidate
      (normalize_candidate (from_key_values kv sid tool))).confidence
        f.name).getD 0 = 0
    rw [validate_confidence_lookup]
    rw [show lookupKey (normalize_candidate
      (from_key_values kv sid tool)).confidence f.name = none from hname]
    rfl

/-- C9: a raw key-value candidate carries confidence only under `_kv`, so
every canonical field it contributes merges at the 0.0 default and loses to
any competing candidate with strictly positive recorded confidence,
regardless of where it sits in the candidate order. -/
theorem kv_candidate_merges_at_zero_confidence :
    (∀ (kv : List (String × String)) (sid tool : String),
      (from_key_values kv sid tool).confidence = [("_kv", (0.55 : Rat))]) ∧
    (∀ (kv : List (String × String)) (sid tool : String) (f : CanonField),
      propConf (normalize_candidate (from_key_values kv sid tool)) f.name = 0 ∧
      propConf (procCand (from_key_values kv sid tool)) f.name = 0) ∧
    (∀ (l1 l2 : List Candidate) (kv : List (String × String))
        (sid tool : String) (f : CanonField),
      (∃ d ∈ l1 ++ l2, proposesB d f.name = true ∧ 0 < propConf d f.name) →
      ∃ w, selectWinner
          (l1 ++ procCand (from_key_values kv sid tool) :: l2) f.name = some w ∧
        0 < propConf w f.name ∧
        w ≠ procCand (from_key_values kv sid tool)) := by
  refine ⟨fun _ _ _ => rfl, fun kv sid tool f => kv_propConf_zero kv sid tool f,
    ?_⟩
  rintro l1 l2 kv sid tool f ⟨d, hd, hpd, hcd⟩
  have hdin : d ∈ l1 ++ procCand (from_key_values kv sid tool) :: l2 := by
    rcases List.mem_append.mp hd with hdl | hdr
    · exact List.mem_append.mpr (Or.inl hdl)
    · exact List.mem_append.mpr (Or.inr (List.mem_cons_of_mem _ hdr))
  have hs := selFold_isSome f.name
    (l1 ++ procCand (from_key_values kv sid tool) :: l2) none
    (Or.inr ⟨d, hdin, hpd⟩)
  obtain ⟨w, hw⟩ := Option.isSome_iff_exists.mp hs
  have hw' : selectWinner
      (l1 ++ procCand (from_key_values kv sid tool) :: l2) f.name = some w := hw
  obtain ⟨a, b, hsplit, hpw, hmax, hlt⟩ := selectWinner_spec _ _ w hw'
  have hwconf : 0 < propConf w f.name :=
    lt_of_lt_of_le hcd (hmax d hdin hpd)
  refine ⟨w, hw', hwconf, ?_⟩
  intro heq
  rw [heq, (kv_propConf_zero kv sid tool f).2] at hwconf
  exact lt_irrefl 0 hwconf

/-! ## Orchestration loop lemmas -/

theorem runLoop_exec_take (candsOf : String → List Candidate) (thr : Rat) :
    ∀ (tools : List String) (acc : List Candidate),
      (runLoop candsOf thr tools acc).1
        = tools.take (runLoop candsOf thr tools acc).1.length := by
  intro tools
  induction tools with
  | nil => intro acc; rfl
  | cons t ts ih =>
    intro acc
    show (runLoop candsOf thr (t :: ts) acc).1 = _
    unfold runLoop
    by_cases hstop : thr ≤ completeness_score
        (merge_candidates (acc ++ (candsOf t).map procCand))
    · rw [if_pos hstop]
      rfl
    · rw [if_neg hstop]
      show t :: (runLoop candsOf thr ts _).1
          = (t :: ts).take (t :: (runLoop candsOf thr ts _).1).length
      rw [List.length_cons, List.take_succ_cons]
      rw [← ih _]

theorem runLoop_acc_eq (candsOf : String → List Candidate) (thr : Rat) :
    ∀ (tools : List String) (acc : List Candidate),
      (runLoop candsOf thr tools acc).2
        = acc ++ (tools.take (runLoop candsOf thr tools acc).1.length).flatMap
            (fun t => (candsOf t).map procCand) := by
  intro tools
  induction tools with
  | nil => intro acc; simp [runLoop]
  | cons t ts ih =>
    intro acc
    unfold runLoop
    by_cases hstop : thr ≤ completeness_score
        (merge_candidates (acc ++ (candsOf t).map procCand))
    · rw [if_pos hstop]
      simp
    · rw [if_neg hstop]
      show (runLoop candsOf thr ts _).2 = _
      rw [ih _]
      rw [List.length_cons, List.take_succ_cons, List.flatMap_cons,
        List.append_assoc]

theorem runLoop_exec_len_pos_iff (candsOf : String → List Candidate)
    (thr : Rat) (tools : List String) (acc : List Candidate) :
    0 < (runLoop candsOf thr tools acc).1.length ↔ 0 < tools.length := by
  cases tools with
  | nil => simp [runLoop]
  | cons t ts =>
    unfold runLoop
    by_cases hstop : thr ≤ completeness_score
        (merge_candidates (acc ++ (candsOf t).map procCand))
    · rw [if_pos hstop]
      simp
    · rw [if_neg hstop]
      simp

/-- The loop continues past step `k` (for a step `k ≥ 1` that ran) iff the
plan is not exhausted and the score of the merge of everything accumulated
through step `k` is still strictly below the threshold. -/
theorem runLoop_step_iff (candsOf : String → List Candidate) (thr : Rat) :
    ∀ (tools : List String) (acc : List Candidate) (k : Nat), 1 ≤ k →
      k ≤ (runLoop candsOf thr tools acc).1.length →
      (k + 1 ≤ (runLoop candsOf thr tools acc).1.length ↔
        (k < tools.length ∧ completeness_score (merge_candidates
          (acc ++ (tools.take k).flatMap (fun t => (candsOf t).map procCand)))
            < thr)) := by
  intro tools
  induction tools with
  | nil =>
    intro acc k hk1 hkle
    have h0 : (runLoop candsOf thr [] acc).1.length = 0 := rfl
    rw [h0] at hkle
    omega
  | cons t ts ih =>
    intro acc k hk1 hkle
    by_cases hstop : thr ≤ completeness_score
        (merge_candidates (acc ++ (candsOf t).map procCand))
    · have hex : (runLoop candsOf thr (t :: ts) acc).1 = [t] := by
        unfold runLoop
        rw [if_pos hstop]
      rw [hex] at hkle ⊢
      have hk : k = 1 := by
        simp only [List.length_cons, List.length_nil] at hkle
        omega
      subst hk
      simp only [List.length_cons, List.length_nil]
      constructor
      · intro h2
        omega
      · rintro ⟨hlen, hsc⟩
        exfalso
        have harg : acc ++ ((t :: ts).take 1).flatMap
            (fun t2 => (candsOf t2).map procCand)
            = acc ++ (candsOf t).map procCand := by
          simp
        rw [harg] at hsc
        exact absurd hsc (not_lt.mpr hstop)
    · have hex : (runLoop candsOf thr (t :: ts) acc).1
          = t :: (runLoop candsOf thr ts (acc ++ (candsOf t).map procCand)).1 := by
        simp only [runLoop]
        rw [if_neg hstop]
      rw [hex] at hkle ⊢
      by_cases hk1' : k = 1
      · subst hk1'
        have harg : acc ++ ((t :: ts).take 1).flatMap
            (fun t2 => (candsOf t2).map procCand)
            = acc ++ (candsOf t).map procCand := by
          simp
        rw [harg]
        have hpos := runLoop_exec_len_pos_iff candsOf thr ts
          (acc ++ (candsOf t).map procCand)
        constructor
        · intro h2
          simp only [List.length_cons] at h2
          have h3 : 0 < (runLoop candsOf thr ts
              (acc ++ (candsOf t).map procCand)).1.length := by omega
          have h4 := hpos.mp h3
          refine ⟨?_, not_le.mp hstop⟩
          simp only [List.length_cons]
          omega
        · rintro ⟨hlen, _⟩
          simp only [List.length_cons] at hlen ⊢
          have h4 : 0 < ts.length := by omega
          have h5 := hpos.mpr h4
          omega
      · rcases k with _ | k'
        · omega
        · have hk'1 : 1 ≤ k' := by omega
          have hkle' : k' ≤ (runLoop candsOf thr ts
              (acc ++ (candsOf t).map procCand)).1.length := by
            simp only [List.length_cons] at hkle
            omega
          have hih := ih (acc ++ (candsOf t).map procCand) k' hk'1 hkle'
          have harg : (acc ++ (candsOf t).map procCand)
              ++ (ts.take k').flatMap (fun t2 => (candsOf t2).map procCand)
              = acc ++ ((t :: ts).take (k' + 1)).flatMap
                  (fun t2 => (candsOf t2).map procCand) := by
            rw [List.take_succ_cons, List.flatMap_cons, List.append_assoc]
          rw [harg] at hih
          simp only [List.length_cons]
          constructor
          · intro h2
            have h3 : k' + 1 ≤ (runLoop candsOf thr ts
                (acc ++ (candsOf t).map procCand)).1.length := by omega
            obtain ⟨hl, hs⟩ := hih.mp h3
            exact ⟨by omega, hs⟩
          · rintro ⟨hl, hs⟩
            have h3 := hih.mpr ⟨by omega, hs⟩
            omega

/-- The planned tool list of a document is nonempty whenever at least one
step is allowed, whatever the backend. -/
theorem docTools_ne_nil (text backend : String) (m : Nat) :
    docTools text backend (m + 1) ≠ [] := by
  unfold docTools tool_plan_for_text
  by_cases hl : looks_like_agilox text <;> by_cases hb : backend = "none" <;>
    simp [hl, hb]

theorem runLoop_thr_zero (candsOf : String → List Candidate)
    (t : String) (ts : List String) (acc : List Candidate) :
    (runLoop candsOf 0 (t :: ts) acc).1.length = 1 := by
  have hstop : (0 : Rat) ≤ completeness_score
      (merge_candidates (acc ++ (candsOf t).map procCand)) :=
    completeness_score_nonneg _
  have hex : (runLoop candsOf 0 (t :: ts) acc).1 = [t] := by
    simp only [runLoop]
    rw [if_pos hstop]
  rw [hex]
  rfl

/-- With a three-tool plan whose merged record never fills all six core
fields, all three steps run under threshold 1. -/
theorem runLoop_three_full_steps (candsOf : String → List Candidate)
    (t1 t2 t3 : String)
    (h : ∀ k, k ≤ 3 → ∃ f ∈ CORE_FIELDS,
      isFilled ((merge_candidates
        (accThrough candsOf [t1, t2, t3] k)).get f) = false) :
    (runLoop candsOf 1 [t1, t2, t3] []).1.length = 3 := by
  have hs1 : ¬ (1 : Rat) ≤ completeness_score
      (merge_candidates ([] ++ (candsOf t1).map procCand)) := by
    apply not_le.mpr
    have hx := completeness_score_lt_one _ (h 1 (by omega))
    simp only [accThrough, List.take_succ_cons, List.take_zero,
      List.flatMap_cons, List.flatMap_nil, List.append_nil] at hx
    simpa using hx
  have hs2 : ¬ (1 : Rat) ≤ completeness_score
      (merge_candidates (([] ++ (candsOf t1).map procCand)
        ++ (candsOf t2).map procCand)) := by
    apply not_le.mpr
    have hx := completeness_score_lt_one _ (h 2 (by omega))
    simp only [accThrough, List.take_succ_cons, List.take_zero,
      List.flatMap_cons, List.flatMap_nil, List.append_nil] at hx
    simpa [List.append_assoc] using hx
  have hex1 : (runLoop candsOf 1 [t1, t2, t3] []).1
      = t1 :: (runLoop candsOf 1 [t2, t3]
          ([] ++ (candsOf t1).map procCand)).1 := by
    simp only [runLoop]
    rw [if_neg hs1]
  have hex2 : (runLoop candsOf 1 [t2, t3]
        ([] ++ (candsOf t1).map procCand)).1
      = t2 :: (runLoop candsOf 1 [t3]
          (([] ++ (candsOf t1).map procCand)
            ++ (candsOf t2).map procCand)).1 := by
    simp only [runLoop]
    rw [if_neg hs2]
  have hex3 : (runLoop candsOf 1 [t3]
        (([] ++ (candsOf t1).map procCand)
          ++ (candsOf t2).map procCand)).1.length = 1 := by
    by_cases hs3 : (1 : Rat) ≤ completeness_score
        (merge_candidates ((([] ++ (candsOf t1).map procCand)
          ++ (candsOf t2).map procCand) ++ (candsOf t3).map procCand))
    · have : (runLoop candsOf 1 [t3]
          (([] ++ (candsOf t1).map procCand)
            ++ (candsOf t2).map procCand)).1 = [t3] := by
        simp only [runLoop]
        rw [if_pos hs3]
      rw [this]
      rfl
    · have : (runLoop candsOf 1 [t3]
          (([] ++ (candsOf t1).map procCand)
            ++ (candsOf t2).map procCand)).1
          = t3 :: (runLoop candsOf 1 []
              ((([] ++ (candsOf t1).map procCand)
                ++ (candsOf t2).map procCand)
                  ++ (candsOf t3).map procCand)).1 := by
        simp only [runLoop]
        rw [if_neg hs3]
      rw [this]
      rfl
  rw [hex1, hex2]
  simp only [List.length_cons]
  omega

/-- C2: in the per-document loop, a step `k + 1` is executed (given step
`k ≥ 1` ran) iff the plan is not exhausted and the completeness score of
the merge of everything accumulated through step `k` is strictly below the
threshold; with threshold 0 exactly one step runs per document; with
threshold 1 and a three-tool plan that never fills all six core fields all
three steps run; candidates accumulate monotonically and are never
removed. -/
theorem orchestration_stop_conditions :
    (∀ (candsOf : String → List Candidate) (thr : Rat) (tools : List String)
        (k : Nat), 1 ≤ k → k ≤ (runLoop candsOf thr tools []).1.length →
      (k + 1 ≤ (runLoop candsOf thr tools []).1.length ↔
        (k < tools.length ∧ completeness_score
          (merge_candidates (accThrough candsOf tools k)) < thr))) ∧
    (∀ (candsOf : String → List Candidate) (text backend : String)
        (maxSteps : Nat), 1 ≤ maxSteps →
      (runDocument candsOf text 0 maxSteps backend).2.length = 1) ∧
    (∀ (candsOf : String → List Candidate) (t1 t2 t3 : String),
      (∀ k, k ≤ 3 → ∃ f ∈ CORE_FIELDS,
        isFilled ((merge_candidates
          (accThrough candsOf [t1, t2, t3] k)).get f) = false) →
      (runLoop candsOf 1 [t1, t2, t3] []).1.length = 3) ∧
    (∀ (candsOf : String → List Candidate) (thr : Rat) (tools : List String),
      (runLoop candsOf thr tools []).2
        = accThrough candsOf tools (runLoop candsOf thr tools []).1.length ∧
      (runLoop candsOf thr tools []).1
        = tools.take (runLoop candsOf thr tools []).1.length) ∧
    (∀ (candsOf : String → List Candidate) (tools : List String) (j k : Nat),
      j ≤ k → ∃ tail,
        accThrough candsOf tools j ++ tail = accThrough candsOf tools k) := by
  refine ⟨?_, ?_, ?_, ?_, ?_⟩
  · intro candsOf thr tools k hk1 hkle
    have h := runLoop_step_iff candsOf thr tools [] k hk1 hkle
    simpa [accThrough] using h
  · intro candsOf text backend maxSteps hms
    obtain ⟨m, rfl⟩ : ∃ m, maxSteps = m + 1 := ⟨maxSteps - 1, by omega⟩
    show (runLoop candsOf 0 (docTools text backend (m + 1)) []).1.length = 1
    obtain ⟨t, ts, heq⟩ :=
      List.exists_cons_of_ne_nil (docTools_ne_nil text backend m)
    rw [heq]
    exact runLoop_thr_zero candsOf t ts []
  · intro candsOf t1 t2 t3 h
    exact runLoop_three_full_steps candsOf t1 t2 t3 h
  · intro candsOf thr tools
    constructor
    · have h := runLoop_acc_eq candsOf thr tools []
      simpa [accThrough] using h
    · exact runLoop_exec_take candsOf thr tools []
  · intro candsOf tools j k hjk
    unfold accThrough
    obtain ⟨d, rfl⟩ : ∃ d, k = j + d := ⟨k - j, by omega⟩
    rw [List.take_add, List.flatMap_append]
    exact ⟨_, rfl⟩

/-- C2 witness: with threshold 0, a budget of one step and no backend,
exactly one tool step runs. -/
theorem orchestration_stop_conditions_witness :
    (runDocument (fun _ => []) "" 0 1 "none").2.length = 1 :=
  orchestration_stop_conditions.2.1 (fun _ => []) "" "none" 1 (le_refl 1)

/-! ## Normalizer lemmas: the `_kv` dimension rewriting -/

/-- The eight canonical names the kv-table loop can write. -/
def kvTargets : List String :=
  ["length_mm", "width_mm", "height_mm", "payload_kg", "speed_m_s",
   "weight_kg", "turning_radius_mm", "lift_height_mm"]

theorem lookupKey_condSet_ne (b : Bool) (fs : List (String × Option Val))
    (k : String) (v : Option Val) (q : String) (h : k ≠ q) :
    lookupKey (condSet b fs k v) q = lookupKey fs q := by
  cases b
  · rfl
  · exact lookupKey_setKey_ne fs k q v h

theorem condSetDims_true (fs : List (String × Option Val))
    (d : Option Rat × Option Rat × Option Rat) :
    condSetDims true fs d = setDims fs d := rfl

theorem condSetDims_false (fs : List (String × Option Val))
    (d : Option Rat × Option Rat × Option Rat) :
    condSetDims false fs d = fs := rfl

theorem lookupKey_setDims_length (fs : List (String × Option Val))
    (d : Option Rat × Option Rat × Option Rat) :
    lookupKey (setDims fs d) "length_mm" = some (d.1.map .num) := by
  unfold setDims
  rw [lookupKey_setKey_ne _ _ _ _ (by decide),
    lookupKey_setKey_ne _ _ _ _ (by decide), lookupKey_setKey_self]

theorem lookupKey_setDims_width (fs : List (String × Option Val))
    (d : Option Rat × Option Rat × Option Rat) :
    lookupKey (setDims fs d) "width_mm" = some (d.2.1.map .num) := by
  unfold setDims
  rw [lookupKey_setKey_ne _ _ _ _ (by decide), lookupKey_setKey_self]

theorem lookupKey_setDims_height (fs : List (String × Option Val))
    (d : Option Rat × Option Rat × Option Rat) :
    lookupKey (setDims fs d) "height_mm" = some (d.2.2.map .num) := by
  unfold setDims
  rw [lookupKey_setKey_self]

theorem lookupKey_setDims_other (fs : List (String × Option Val))
    (d : Option Rat × Option Rat × Option Rat) (q : String)
    (h1 : "length_mm" ≠ q) (h2 : "width_mm" ≠ q) (h3 : "height_mm" ≠ q) :
    lookupKey (setDims fs d) q = lookupKey fs q := by
  unfold setDims
  rw [lookupKey_setKey_ne _ _ _ _ h3, lookupKey_setKey_ne _ _ _ _ h2,
    lookupKey_setKey_ne _ _ _ _ h1]

theorem lookupKey_condSetDims_other (b : Bool)
    (fs : List (String × Option Val))
    (d : Option Rat × Option Rat × Option Rat) (q : String)
    (h1 : "length_mm" ≠ q) (h2 : "width_mm" ≠ q) (h3 : "height_mm" ≠ q) :
    lookupKey (condSetDims b fs d) q = lookupKey fs q := by
  cases b
  · rfl
  · exact lookupKey_setDims_other fs d q h1 h2 h3

theorem lookupKey_applyKVEntry_other (fs : List (String × Option Val))
    (k v : String) (q : String) (h : q ∉ kvTargets) :
    lookupKey (applyKVEntry fs k v) q = lookupKey fs q := by
  simp only [kvTargets, List.mem_cons, List.not_mem_nil, or_false] at h
  push_neg at h
  obtain ⟨n1, n2, n3, n4, n5, n6, n7, n8⟩ := h
  unfold applyKVEntry
  rw [lookupKey_condSet_ne _ _ _ _ _ (Ne.symm n8),
    lookupKey_condSet_ne _ _ _ _ _ (Ne.symm n7),
    lookupKey_condSet_ne _ _ _ _ _ (Ne.symm n6),
    lookupKey_condSet_ne _ _ _ _ _ (Ne.symm n5),
    lookupKey_condSet_ne _ _ _ _ _ (Ne.symm n4),
    lookupKey_condSetDims_other _ _ _ _ (Ne.symm n1) (Ne.symm n2) (Ne.symm n3)]

/-- A dimension-matching raw key writes all three dimension fields from
the first three numbers of its value. -/
theorem applyKVEntry_dims_match (fs : List (String × Option Val))
    (k v : String) (hm : dimFragB (toLowerL k.data) = true) :
    lookupKey (applyKVEntry fs k v) "length_mm"
        = some ((parse_dimensions_mm v).1.map .num) ∧
    lookupKey (applyKVEntry fs k v) "width_mm"
        = some ((parse_dimensions_mm v).2.1.map .num) ∧
    lookupKey (applyKVEntry fs k v) "height_mm"
        = some ((parse_dimensions_mm v).2.2.map .num) := by
  unfold applyKVEntry
  rw [hm]
  refine ⟨?_, ?_, ?_⟩
  · rw [lookupKey_condSet_ne _ _ _ _ _ (by decide),
      lookupKey_condSet_ne _ _ _ _ _ (by decide),
      lookupKey_condSet_ne _ _ _ _ _ (by decide),
      lookupKey_condSet_ne _ _ _ _ _ (by decide),
      lookupKey_condSet_ne _ _ _ _ _ (by decide),
      condSetDims_true, lookupKey_setDims_length]
  · rw [lookupKey_condSet_ne _ _ _ _ _ (by decide),
      lookupKey_condSet_ne _ _ _ _ _ (by decide),
      lookupKey_condSet_ne _ _ _ _ _ (by decide),
      lookupKey_condSet_ne _ _ _ _ _ (by decide),
      lookupKey_condSet_ne _ _ _ _ _ (by decide),
      condSetDims_true, lookupKey_setDims_width]
  · rw [lookupKey_condSet_ne _ _ _ _ _ (by decide),
      lookupKey_condSet_ne _ _ _ _ _ (by decide),
      lookupKey_condSet_ne _ _ _ _ _ (by decide),
      lookupKey_condSet_ne _ _ _ _ _ (by decide),
      lookupKey_condSet_ne _ _ _ _ _ (by decide),
      condSetDims_true, lookupKey_setDims_height]

/-- A raw key with no dimension fragment leaves the dimension fields
alone. -/
theorem applyKVEntry_dims_nomatch (fs : List (String × Option Val))
    (k v : String) (hm : dimFragB (toLowerL k.data) = false) :
    lookupKey (applyKVEntry fs k v) "length_mm"
        = lookupKey fs "length_mm" ∧
    lookupKey (applyKVEntry fs k v) "width_mm" = lookupKey fs "width_mm" ∧
    lookupKey (applyKVEntry fs k v) "height_mm"
        = lookupKey fs "height_mm" := by
  unfold applyKVEntry
  rw [hm]
  refine ⟨?_, ?_, ?_⟩ <;>
    rw [lookupKey_condSet_ne _ _ _ _ _ (by decide),
      lookupKey_condSet_ne _ _ _ _ _ (by decide),
      lookupKey_condSet_ne _ _ _ _ _ (by decide),
      lookupKey_condSet_ne _ _ _ _ _ (by decide),
      lookupKey_condSet_ne _ _ _ _ _ (by decide),
      condSetDims_false]

theorem kvFold_other (q : String) (h : q ∉ kvTargets) :
    ∀ (kvl : List (String × String)) (fs : List (String × Option Val)),
      lookupKey (kvl.foldl (fun fs2 p => applyKVEntry fs2 p.1 p.2) fs) q
        = lookupKey fs q := by
  intro kvl
  induction kvl with
  | nil => intro fs; rfl
  | cons p t ih =>
    intro fs
    simp only [List.foldl_cons]
    rw [ih, lookupKey_applyKVEntry_other _ _ _ _ h]

/-- Over a whole raw table, the last dimension-matching row decides all
three dimension fields; with no matching row they are untouched. -/
theorem kvFold_dims :
    ∀ (kvl : List (String × String)) (fs : List (String × Option Val)),
      ((kvl.filter (fun p => dimFragB (toLowerL p.1.data))) = [] →
        lookupKey (kvl.foldl (fun fs2 p => applyKVEntry fs2 p.1 p.2) fs)
            "length_mm" = lookupKey fs "length_mm" ∧
        lookupKey (kvl.foldl (fun fs2 p => applyKVEntry fs2 p.1 p.2) fs)
            "width_mm" = lookupKey fs "width_mm" ∧
        lookupKey (kvl.foldl (fun fs2 p => applyKVEntry fs2 p.1 p.2) fs)
            "height_mm" = lookupKey fs "height_mm") ∧
      (∀ k0 v0,
        (kvl.filter (fun p => dimFragB (toLowerL p.1.data))).getLast?
            = some (k0, v0) →
        lookupKey (kvl.foldl (fun fs2 p => applyKVEntry fs2 p.1 p.2) fs)
            "length_mm" = some ((parse_dimensions_mm v0).1.map .num) ∧
        lookupKey (kvl.foldl (fun fs2 p => applyKVEntry fs2 p.1 p.2) fs)
            "width_mm" = some ((parse_dimensions_mm v0).2.1.map .num) ∧
        lookupKey (kvl.foldl (fun fs2 p => applyKVEntry fs2 p.1 p.2) fs)
            "height_mm" = some ((parse_dimensions_mm v0).2.2.map .num)) := by
  intro kvl
  induction kvl using List.reverseRecOn with
  | nil =>
    intro fs
    exact ⟨fun _ => ⟨rfl, rfl, rfl⟩, fun k0 v0 h0 => by cases h0⟩
  | append_singleton l p ihl =>
    intro fs
    have hfold : (l ++ [p]).foldl (fun fs2 q => applyKVEntry fs2 q.1 q.2) fs
        = applyKVEntry (l.foldl (fun fs2 q => applyKVEntry fs2 q.1 q.2) fs)
            p.1 p.2 := by
      rw [List.foldl_append, List.foldl_cons, List.foldl_nil]
    by_cases hm : dimFragB (toLowerL p.1.data) = true
    · have hfilter : (l ++ [p]).filter (fun q => dimFragB (toLowerL q.1.data))
          = l.filter (fun q => dimFragB (toLowerL q.1.data)) ++ [p] := by
        rw [List.filter_append]
        simp [hm]
      constructor
      · intro habs
        rw [hfilter] at habs
        simp at habs
      · intro k0 v0 h0
        rw [hfilter, List.getLast?_concat] at h0
        have hp : p = (k0, v0) := Option.some.inj h0
        subst hp
        rw [hfold]
        exact applyKVEntry_dims_match _ k0 v0 hm
    · have hmf : dimFragB (toLowerL p.1.data) = false := by
        revert hm
        cases dimFragB (toLowerL p.1.data) <;> simp
      have hfilter : (l ++ [p]).filter (fun q => dimFragB (toLowerL q.1.data))
          = l.filter (fun q => dimFragB (toLowerL q.1.data)) := by
        rw [List.filter_append]
        simp [hmf]
      obtain ⟨hd1, hd2, hd3⟩ := applyKVEntry_dims_nomatch
        (l.foldl (fun fs2 q => applyKVEntry fs2 q.1 q.2) fs) p.1 p.2 hmf
      rw [hfold, hfilter]
      constructor
      · intro hnil
        obtain ⟨g1, g2, g3⟩ := (ihl fs).1 hnil
        exact ⟨hd1.trans g1, hd2.trans g2, hd3.trans g3⟩
      · intro k0 v0 h0
        obtain ⟨g1, g2, g3⟩ := (ihl fs).2 k0 v0 h0
        exact ⟨hd1.trans g1, hd2.trans g2, hd3.trans g3⟩

/-- For a candidate that carries exactly the raw table (the
`from_key_values` shape), normalization is exactly the kv fold: the later
blocks of `normalize_candidate` see none of their trigger keys. -/
theorem normalize_pure_kv (c : Candidate) (kvl : List (String × String))
    (hf : c.fields = [("_kv", some (.kv kvl))]) :
    (normalize_candidate c).fields
      = kvl.foldl (fun fs2 p => applyKVEntry fs2 p.1 p.2) c.fields := by
  have hbase : ∀ q : String, q ≠ "_kv" → lookupKey c.fields q = none := by
    intro q hq
    rw [hf]
    simp only [lookupKey]
    rw [if_neg (fun h => hq h.symm)]
  have hkv : normStepKV c.fields
      = kvl.foldl (fun fs2 p => applyKVEntry fs2 p.1 p.2) c.fields := by
    unfold normStepKV
    rw [hf]
    have he : lookupKey [("_kv", some (Val.kv kvl))] "_kv"
        = some (some (Val.kv kvl)) := by
      simp [lookupKey]
    rw [he]
  have hother : ∀ q : String, q ∈ kvTargets → True := fun _ _ => trivial
  have hlk : ∀ q : String, q ≠ "_kv" → q ∉ kvTargets →
      lookupKey (kvl.foldl (fun fs2 p => applyKVEntry fs2 p.1 p.2) c.fields) q
        = none := by
    intro q hq hqt
    rw [kvFold_other q hqt kvl c.fields]
    exact hbase q hq
  have h1 : normStepAbmasse
      (kvl.foldl (fun fs2 p => applyKVEntry fs2 p.1 p.2) c.fields)
      = kvl.foldl (fun fs2 p => applyKVEntry fs2 p.1 p.2) c.fields := by
    unfold normStepAbmasse
    rw [hlk "abmasse" (by decide) (by decide)]
  have h2 : normStepAlias "max_last" "payload_kg"
      (kvl.foldl (fun fs2 p => applyKVEntry fs2 p.1 p.2) c.fields)
      = kvl.foldl (fun fs2 p => applyKVEntry fs2 p.1 p.2) c.fields := by
    unfold normStepAlias
    rw [hlk "max_last" (by decide) (by decide)]
  have h3 : normStepAlias "eigengewicht" "weight_kg"
      (kvl.foldl (fun fs2 p => applyKVEntry fs2 p.1 p.2) c.fields)
      = kvl.foldl (fun fs2 p => applyKVEntry fs2 p.1 p.2) c.fields := by
    unfold normStepAlias
    rw [hlk "eigengewicht" (by decide) (by decide)]
  have h4 : normStepAlias "drehkreis" "turning_radius_mm"
      (kvl.foldl (fun fs2 p => applyKVEntry fs2 p.1 p.2) c.fields)
      = kvl.foldl (fun fs2 p => applyKVEntry fs2 p.1 p.2) c.fields := by
    unfold normStepAlias
    rw [hlk "drehkreis" (by decide) (by decide)]
  have h5 : normStepAlias "max_hubhoehe" "lift_height_mm"
      (kvl.foldl (fun fs2 p => applyKVEntry fs2 p.1 p.2) c.fields)
      = kvl.foldl (fun fs2 p => applyKVEntry fs2 p.1 p.2) c.fields := by
    unfold normStepAlias
    rw [hlk "max_hubhoehe" (by decide) (by decide)]
  have h6 : normStepDevice
      (kvl.foldl (fun fs2 p => applyKVEntry fs2 p.1 p.2) c.fields)
      = kvl.foldl (fun fs2 p => applyKVEntry fs2 p.1 p.2) c.fields := by
    unfold normStepDevice
    apply if_neg
    rintro ⟨_, h2x⟩
    rw [hlk "device" (by decide) (by decide)] at h2x
    simp at h2x
  have h7 : normStepVendor c.fields
      (kvl.foldl (fun fs2 p => applyKVEntry fs2 p.1 p.2) c.fields)
      = kvl.foldl (fun fs2 p => applyKVEntry fs2 p.1 p.2) c.fields := by
    unfold normStepVendor
    apply if_neg
    rintro ⟨_, h2x⟩
    rw [hbase "vendor" (by decide)] at h2x
    simp at h2x
  show normStepVendor c.fields (normStepDevice (normStepAlias _ _
    (normStepAlias _ _ (normStepAlias _ _ (normStepAlias _ _
      (normStepAbmasse (normStepKV c.fields))))))) = _
  rw [hkv, h1, h2, h3, h4, h5, h6, h7]

/-- Truncating after dropping the trailing `llm` agrees with dropping
after truncating, for a three-tool plan ending in `llm`. -/
theorem take_filter_llm_last (a b : String)
    (ha : (!decide (a = "llm")) = true) (hb2 : (!decide (b = "llm")) = true)
    (ms : Nat) :
    (List.filter (fun t => !decide (t = "llm")) [a, b, "llm"]).take ms
      = List.filter (fun t => !decide (t = "llm")) ([a, b, "llm"].take ms) := by
  have hllm : (!decide (("llm" : String) = "llm")) = false := by decide
  have hf : List.filter (fun t => !decide (t = "llm")) [a, b, "llm"]
      = [a, b] := by
    simp [List.filter_cons, ha, hb2, hllm]
  rcases ms with _ | _ | _ | m
  · simp
  · rw [hf]
    simp [List.filter_cons, ha]
  · rw [hf]
    simp [List.filter_cons, ha, hb2]
  · rw [hf, List.take_of_length_le (by simp),
      List.take_of_length_le (by simp)]
    exact hf.symm

/-- C8: the tool list the loop iterates over (drop `llm` when no backend,
then truncate, as the code computes it) equals truncating the plan to the
step budget first and then dropping `llm`, because both plans end with the
`llm` tool; and the executed sequence is exactly an initial segment of that
planned list. -/
theorem plan_truncate_then_drop_equivalence :
    (∀ (text backend : String) (maxSteps : Nat),
      docTools text backend maxSteps = plannedToolsSpec text backend maxSteps) ∧
    (∀ (candsOf : String → List Candidate) (text : String) (thr : Rat)
        (maxSteps : Nat) (backend : String),
      (runDocument candsOf text thr maxSteps backend).2
        = (plannedToolsSpec text backend maxSteps).take
            (runDocument candsOf text thr maxSteps backend).2.length) := by
  have hmain : ∀ (text backend : String) (maxSteps : Nat),
      docTools text backend maxSteps = plannedToolsSpec text backend maxSteps := by
    intro text backend maxSteps
    unfold docTools plannedToolsSpec tool_plan_for_text
    by_cases hb : backend = "none"
    · rw [if_pos hb, if_pos hb]
      by_cases hl : looks_like_agilox text
      · rw [if_pos hl]
        exact take_filter_llm_last "regex_agilox" "key_value"
          (by decide) (by decide) maxSteps
      · rw [if_neg hl]
        exact take_filter_llm_last "key_value" "regex_generic"
          (by decide) (by decide) maxSteps
    · rw [if_neg hb, if_neg hb]
  refine ⟨hmain, ?_⟩
  intro candsOf text thr maxSteps backend
  show (runLoop candsOf thr (docTools text backend maxSteps) []).1 = _
  rw [← hmain]
  exact runLoop_exec_take candsOf thr (docTools text backend maxSteps) []

/-- C9 witness: a 0.5-confidence payload proposal beats the key-value
candidate's normalized payload regardless of it sitting first. -/
theorem kv_candidate_merges_at_zero_confidence_witness :
    ∃ w, selectWinner
        [⟨"d", "t", [("payload_kg", some (.num 7))],
          [("payload_kg", mkRat 1 2)], []⟩,
         procCand (from_key_values [("Tragfähigkeit", "500 kg")] "d" "key_value")]
        (CanonField.payload_kg).name = some w ∧
      0 < propConf w (CanonField.payload_kg).name ∧
      w ≠ procCand (from_key_values [("Tragfähigkeit", "500 kg")] "d" "key_value") := by
  have h := kv_candidate_merges_at_zero_confidence.2.2
    [⟨"d", "t", [("payload_kg", some (.num 7))],
      [("payload_kg", mkRat 1 2)], []⟩] []
    [("Tragfähigkeit", "500 kg")] "d" "key_value" CanonField.payload_kg
    ⟨⟨"d", "t", [("payload_kg", some (.num 7))],
      [("payload_kg", mkRat 1 2)], []⟩, by simp, by decide, by decide⟩
  exact h

/-! ## Input-iteration lemmas: insertion sort -/

theorem perm_insSorted (s : String) (l : List String) :
    (insSorted s l).Perm (s :: l) := by
  induction l with
  | nil => simp [insSorted]
  | cons t ts ih =>
    unfold insSorted
    by_cases h : s ≤ t
    · rw [if_pos h]
    · rw [if_neg h]
      exact (ih.cons t).trans (List.Perm.swap s t ts)

theorem perm_sortStr (l : List String) : (sortStr l).Perm l := by
  induction l with
  | nil => exact List.Perm.refl _
  | cons t ts ih =>
    show (insSorted t (sortStr ts)).Perm (t :: ts)
    exact (perm_insSorted t (sortStr ts)).trans (ih.cons t)

theorem mem_sortStr (a : String) (l : List String) :
    a ∈ sortStr l ↔ a ∈ l := (perm_sortStr l).mem_iff

theorem sorted_insSorted (s : String) (l : List String)
    (h : l.Pairwise (· ≤ ·)) : (insSorted s l).Pairwise (· ≤ ·) := by
  induction l with
  | nil => simp [insSorted]
  | cons t ts ih =>
    obtain ⟨hhead, hts⟩ := List.pairwise_cons.mp h
    unfold insSorted
    by_cases hle : s ≤ t
    · rw [if_pos hle]
      refine List.pairwise_cons.mpr ⟨?_, h⟩
      intro b hb
      rcases List.mem_cons.mp hb with hb1 | hb2
      · exact hb1 ▸ hle
      · exact hle.trans (hhead b hb2)
    · rw [if_neg hle]
      refine List.pairwise_cons.mpr ⟨?_, ih hts⟩
      intro b hb
      rcases List.mem_cons.mp ((perm_insSorted s ts).mem_iff.mp hb) with hb1 | hb2
      · exact hb1 ▸ le_of_not_le hle
      · exact hhead b hb2

theorem sorted_sortStr (l : List String) : (sortStr l).Pairwise (· ≤ ·) := by
  induction l with
  | nil => exact List.Pairwise.nil
  | cons t ts ih =>
    show (insSorted t (sortStr ts)).Pairwise (· ≤ ·)
    exact sorted_insSorted t (sortStr ts) ih

/-- C4: for a candidate carrying exactly a raw key-value table,
`normalize_candidate` fills `length_mm`/`width_mm`/`height_mm` from the
first three numbers of the value attached to the last dimension-matching
raw key; if that value holds fewer than three numbers — and likewise if no
raw key matches — no non-null dimension value results; and the scenario
table `Abmessungen: 1500 x 800 x 1200 mm, Tragfähigkeit: 500 kg`
normalizes to length 1500, width 800, height 1200 and payload 500. -/
theorem normalize_kv_dimension_parsing :
    (∀ (c : Candidate) (kvl : List (String × String)),
      c.fields = [("_kv", some (.kv kvl))] →
      (∀ k0 v0,
        (kvl.filter (fun p => dimFragB (toLowerL p.1.data))).getLast?
            = some (k0, v0) →
        (lookupKey (normalize_candidate c).fields "length_mm"
            = some ((parse_dimensions_mm v0).1.map .num) ∧
         lookupKey (normalize_candidate c).fields "width_mm"
            = some ((parse_dimensions_mm v0).2.1.map .num) ∧
         lookupKey (normalize_candidate c).fields "height_mm"
            = some ((parse_dimensions_mm v0).2.2.map .num)) ∧
        ((dimNumerals v0).length < 3 →
          flatVal (normalize_candidate c).fields "length_mm" = none ∧
          flatVal (normalize_candidate c).fields "width_mm" = none ∧
          flatVal (normalize_candidate c).fields "height_mm" = none)) ∧
      ((∀ p ∈ kvl, dimFragB (toLowerL p.1.data) = false) →
        flatVal (normalize_candidate c).fields "length_mm" = none ∧
        flatVal (normalize_candidate c).fields "width_mm" = none ∧
        flatVal (normalize_candidate c).fields "height_mm" = none)) ∧
    (∀ text : String, (dimNumerals text).length < 3 →
      parse_dimensions_mm text = (none, none, none)) ∧
    (∀ (text : String) (a b c3 : List Char) (rest : List (List Char)),
      dimNumerals text = a :: b :: c3 :: rest →
      parse_dimensions_mm text
        = (to_float_chars a, to_float_chars b, to_float_chars c3)) ∧
    (flatVal (normalize_candidate (from_key_values
        [("Abmessungen", "1500 x 800 x 1200 mm"), ("Tragfähigkeit", "500 kg")]
        "doc" "key_value")).fields "length_mm" = some (.num 1500) ∧
     flatVal (normalize_candidate (from_key_values
        [("Abmessungen", "1500 x 800 x 1200 mm"), ("Tragfähigkeit", "500 kg")]
        "doc" "key_value")).fields "width_mm" = some (.num 800) ∧
     flatVal (normalize_candidate (from_key_values
        [("Abmessungen", "1500 x 800 x 1200 mm"), ("Tragfähigkeit", "500 kg")]
        "doc" "key_value")).fields "height_mm" = some (.num 1200) ∧
     flatVal (normalize_candidate (from_key_values
        [("Abmessungen", "1500 x 800 x 1200 mm"), ("Tragfähigkeit", "500 kg")]
        "doc" "key_value")).fields "payload_kg" = some (.num 500)) := by
  have hparse_small : ∀ text : String, (dimNumerals text).length < 3 →
      parse_dimensions_mm text = (none, none, none) := by
    intro text h
    unfold parse_dimensions_mm
    split
    · rename_i a b c3 rest heq
      rw [heq] at h
      simp [List.length_cons] at h
      exact absurd h (by omega)
    · rfl
  refine ⟨?_, hparse_small, ?_, ?_⟩
  · intro c kvl hf
    have hn := normalize_pure_kv c kvl hf
    have hdims := kvFold_dims kvl c.fields
    have hbaseL : lookupKey c.fields "length_mm" = none := by
      rw [hf]; simp [lookupKey]
    have hbaseW : lookupKey c.fields "width_mm" = none := by
      rw [hf]; simp [lookupKey]
    have hbaseH : lookupKey c.fields "height_mm" = none := by
      rw [hf]; simp [lookupKey]
    rw [hn]
    constructor
    · intro k0 v0 h0
      obtain ⟨g1, g2, g3⟩ := hdims.2 k0 v0 h0
      refine ⟨⟨g1, g2, g3⟩, ?_⟩
      intro hlt
      have hp := hparse_small v0 hlt
      rw [hp] at g1 g2 g3
      refine ⟨?_, ?_, ?_⟩
      · unfold flatVal; rw [g1]; rfl
      · unfold flatVal; rw [g2]; rfl
      · unfold flatVal; rw [g3]; rfl
    · intro hall
      have hnil : kvl.filter (fun p => dimFragB (toLowerL p.1.data)) = [] := by
        rw [List.filter_eq_nil_iff]
        intro p hp
        simp [hall p hp]
      obtain ⟨g1, g2, g3⟩ := hdims.1 hnil
      refine ⟨?_, ?_, ?_⟩
      · unfold flatVal; rw [g1, hbaseL]
      · unfold flatVal; rw [g2, hbaseW]
      · unfold flatVal; rw [g3, hbaseH]
  · intro text a b c3 rest hd
    unfold parse_dimensions_mm
    rw [hd]
  · have hfl : (normalize_candidate (from_key_values
        [("Abmessungen", "1500 x 800 x 1200 mm"), ("Tragfähigkeit", "500 kg")]
        "doc" "key_value")).fields
        = [("_kv", some (.kv [("Abmessungen", "1500 x 800 x 1200 mm"),
            ("Tragfähigkeit", "500 kg")])),
           ("length_mm", some (.num 1500)), ("width_mm", some (.num 800)),
           ("height_mm", some (.num 1200)),
           ("payload_kg", some (.num 500))] := by
      decide
    rw [hfl]
    exact ⟨by decide, by decide, by decide, by decide⟩

/-- C10: an existing file is yielded alone; a missing path raises
`FileNotFoundError`; a directory yields first its `*.pdf` entries in
sorted order, then, also sorted, exactly those `*.txt` entries whose stem
no PDF entry of the directory shares — a text file stem-colliding with a
PDF is silently skipped. -/
theorem iter_inputs_pdf_then_txt :
    (∀ n, iter_inputs (.file n) = .ok [n]) ∧
    (∀ p, iter_inputs (.missing p) = .error p) ∧
    (∀ es : List String, ∃ l1 l2 : List String,
      iter_inputs (.dir es) = .ok (l1 ++ l2) ∧
      l1.Perm (es.filter (fun f => endsWithB ".pdf" f)) ∧
      l1.Pairwise (· ≤ ·) ∧
      (∀ t, t ∈ l2 ↔ (t ∈ es ∧ endsWithB ".txt" t = true ∧
        ∀ p ∈ es, endsWithB ".pdf" p = true → stem p ≠ stem t)) ∧
      l2.Pairwise (· ≤ ·)) := by
  refine ⟨fun n => rfl, fun p => rfl, ?_⟩
  intro es
  refine ⟨sortStr (es.filter (fun f => endsWithB ".pdf" f)),
    (sortStr (es.filter (fun f => endsWithB ".txt" f))).filter
      (fun f => !(((sortStr (es.filter (fun f2 => endsWithB ".pdf" f2))).map
          stem).contains (stem f))),
    rfl, perm_sortStr _, sorted_sortStr _, ?_,
    List.Pairwise.filter _ (sorted_sortStr _)⟩
  intro t
  constructor
  · intro ht
    obtain ⟨h1, h2⟩ := List.mem_filter.mp ht
    obtain ⟨h3, h4⟩ := List.mem_filter.mp ((perm_sortStr _).mem_iff.mp h1)
    refine ⟨h3, h4, ?_⟩
    intro p hp hpdf heq
    have h5 : stem t ∈ (sortStr (es.filter
        (fun f2 => endsWithB ".pdf" f2))).map stem :=
      List.mem_map.mpr ⟨p,
        (perm_sortStr _).mem_iff.mpr (List.mem_filter.mpr ⟨hp, hpdf⟩), heq⟩
    rw [Bool.not_eq_true'] at h2
    rw [← List.elem_iff] at h5
    exact absurd h5 (by rw [show ((sortStr (es.filter
      (fun f2 => endsWithB ".pdf" f2))).map stem).elem (stem t)
        = ((sortStr (es.filter (fun f2 => endsWithB ".pdf" f2))).map
          stem).contains (stem t) from rfl, h2]; exact Bool.false_ne_true)
  · rintro ⟨hmem, htxt, hnot⟩
    refine List.mem_filter.mpr
      ⟨(perm_sortStr _).mem_iff.mpr (List.mem_filter.mpr ⟨hmem, htxt⟩), ?_⟩
    rw [Bool.not_eq_true']
    by_contra hc
    have hc2 : (((sortStr (es.filter (fun f2 => endsWithB ".pdf" f2))).map
        stem).contains (stem t)) = true := by
      revert hc
      cases ((sortStr (es.filter (fun f2 => endsWithB ".pdf" f2))).map
        stem).contains (stem t) <;> simp
    have h5 : stem t ∈ (sortStr (es.filter
        (fun f2 => endsWithB ".pdf" f2))).map stem := List.elem_iff.mp hc2
    obtain ⟨p, hp2, heq⟩ := List.mem_map.mp h5
    obtain ⟨hp3, hp4⟩ := List.mem_filter.mp ((perm_sortStr _).mem_iff.mp hp2)
    exact hnot p hp3 hp4 heq

end AGV
